import Mathlib

/-!
Formal model of the tempo-map-to-beat-grid conversion in TempoMapImporter
(`src/script.js`).  MIDI ticks are naturals, wall-clock quantities are exact
rationals (the idealised model of JS floating point), and JS `Math.round` /
`Math.ceil` are modelled explicitly.  Fallible or absent JS fields are
`Option`s; JS arrays are lists.  `Array.prototype.sort` is stable, so it is
modelled by insertion sort with `≤` on the sort key (stable sorts agree).
-/

namespace TempoMap

/-- JS `Math.round` (half toward positive infinity). -/
def jround (q : ℚ) : ℤ := ⌊q + 1/2⌋

/-- JS `Math.ceil`. -/
def jceil (q : ℚ) : ℤ := -⌊-q⌋

/-- A raw tempo event as delivered by the MIDI parser: `{ ticks, bpm }`. -/
structure RawTempo where
  ticks : ℕ
  bpm : ℚ
deriving DecidableEq

/-- A raw time-signature event: `{ ticks, timeSignature: [num, den] }`. -/
structure RawTimeSig where
  ticks : ℕ
  timeSignature : ℕ × ℕ
deriving DecidableEq

/-- A note; the generator only reads its tick position. -/
structure MidiNote where
  ticks : ℕ
deriving DecidableEq

/-- A track; `notes` absent in JS is modelled as the empty list. -/
structure MidiTrack where
  notes : List MidiNote
deriving DecidableEq

/-- The parsed-MIDI header fields read by the generator. -/
structure MidiHeader where
  ppq : Option ℕ
  ppqn : Option ℕ
  tempos : List RawTempo
  timeSignatures : List RawTimeSig
deriving DecidableEq

/-- The parsed-MIDI object as consumed by `generateBeatList`. -/
structure MidiFile where
  header : MidiHeader
  tracks : List MidiTrack
  duration : Option ℚ
deriving DecidableEq

/-- A normalized tempo change. -/
structure TempoEv where
  ticks : ℕ
  bpm : ℚ
deriving DecidableEq

/-- A normalized time-signature change. -/
structure TsEv where
  ticks : ℕ
  numerator : ℕ
  denominator : ℕ
deriving DecidableEq

/-- One generated beat: `{ tick, ms, downbeat, tempoAtTick }`. -/
structure Beat where
  tick : ℕ
  ms : ℤ
  downbeat : ℕ
  tempoAtTick : ℚ
deriving DecidableEq

/-- JS `a || b` for numbers (0 and absent are falsy). -/
def jsOrNat (v : Option ℕ) (dflt : ℕ) : ℕ :=
  match v with
  | some n => if n = 0 then dflt else n
  | none => dflt

/-- Resolution of `midi.header.ppq || midi.header.ppqn || 480`. -/
def resolvePpq (h : MidiHeader) : ℕ :=
  jsOrNat h.ppq (jsOrNat h.ppqn 480)

/-- Tempo normalization (script.js lines 124-128): round each BPM, sort by
tick ascending (stable), default `{ticks 0, bpm 120}` when empty, and unshift
a synthetic tick-0 entry carrying the earliest BPM when the head tick is
nonzero. -/
def normTempos (raw : List RawTempo) : List TempoEv :=
  match List.insertionSort (fun a b : TempoEv => a.ticks ≤ b.ticks)
      (raw.map (fun t => ⟨t.ticks, (jround t.bpm : ℚ)⟩)) with
  | [] => [⟨0, 120⟩]
  | e :: rest => if e.ticks ≠ 0 then ⟨0, e.bpm⟩ :: e :: rest else e :: rest

/-- Time-signature normalization (script.js lines 130-133): sort by tick
ascending (stable), default 4/4 at tick 0 when empty.  Note: unlike tempos,
no synthetic tick-0 entry is inserted when the earliest event is later. -/
def normTimeSigs (raw : List RawTimeSig) : List TsEv :=
  match List.insertionSort (fun a b : TsEv => a.ticks ≤ b.ticks)
      (raw.map (fun ts => ⟨ts.ticks, ts.timeSignature.1, ts.timeSignature.2⟩)) with
  | [] => [⟨0, 4, 4⟩]
  | e :: rest => e :: rest

/-- The seconds-per-tick of a tempo segment: `(60000000 / bpm / 1e6) / ppq`. -/
def secPerTick (bpm : ℚ) (ppq : ℕ) : ℚ := 60000000 / bpm / 1000000 / ppq

/-- The accumulator loop of `ticksToSeconds` (script.js lines 106-117). -/
def ticksToSecondsGo (target : ℕ) (ppq : ℕ) : List TempoEv → ℚ → ℚ
  | [], seconds => seconds
  | [cur], seconds =>
      if target ≤ cur.ticks then seconds
      else seconds + ((target : ℚ) - cur.ticks) * secPerTick cur.bpm ppq
  | cur :: next :: rest, seconds =>
      if target ≤ cur.ticks then seconds
      else
        let segEnd := min next.ticks target
        let acc := seconds + ((segEnd : ℚ) - cur.ticks) * secPerTick cur.bpm ppq
        if target ≤ next.ticks then acc else ticksToSecondsGo target ppq (next :: rest) acc

/-- The integrator `ticksToSeconds(ticks, tempos, ppq)` (script.js lines 104-119). -/
def ticksToSeconds (target : ℕ) (tempos : List TempoEv) (ppq : ℕ) : ℚ :=
  ticksToSecondsGo target ppq tempos 0

/-- Scan helper for `getTempoAtTick`: keep taking entries with tick ≤ `tick`,
stop at the first later one. -/
def lastTempoLE (tick : ℕ) : TempoEv → List TempoEv → TempoEv
  | last, [] => last
  | last, e :: rest => if e.ticks ≤ tick then lastTempoLE tick e rest else last

/-- The lookup `getTempoAtTick` (script.js lines 145-151).  The empty case is
unreachable: the normalized tempo list is never empty (JS would fault). -/
def getTempoAtTick (tempos : List TempoEv) (tick : ℕ) : ℚ :=
  match tempos with
  | [] => 0
  | t :: rest => (lastTempoLE tick t rest).bpm

/-- Scan helper for `getTimeSigForTick`. -/
def lastTsLE (tick : ℕ) : TsEv → List TsEv → TsEv
  | last, [] => last
  | last, e :: rest => if e.ticks ≤ tick then lastTsLE tick e rest else last

/-- The lookup `getTimeSigForTick` (script.js lines 153-159).  The empty case is
unreachable: the normalized time-signature list is never empty. -/
def getTimeSigForTick (timeSigs : List TsEv) (tick : ℕ) : TsEv :=
  match timeSigs with
  | [] => ⟨0, 4, 4⟩
  | s :: rest => lastTsLE tick s rest

/-- The `lastTsTick` scan (script.js line 174): start at 0, keep overwriting
while the event tick is ≤ `tick`, break at the first later event. -/
def lastTsTickGo (tick : ℕ) : List TsEv → ℕ → ℕ
  | [], acc => acc
  | e :: rest, acc => if e.ticks ≤ tick then lastTsTickGo tick rest e.ticks else acc

def lastTsTickAt (timeSigs : List TsEv) (tick : ℕ) : ℕ :=
  lastTsTickGo tick timeSigs 0

/-- The maximum note-on tick across all tracks (script.js lines 135-138). -/
def noteMaxTick (tracks : List MidiTrack) : ℕ :=
  tracks.foldl (fun m tr => tr.notes.foldl (fun m n => if n.ticks > m then n.ticks else m) m) 0

/-- BPM of `tempos[0]` (used by the duration back-conversion). -/
def headBpm (tempos : List TempoEv) : ℚ :=
  match tempos with
  | [] => 0
  | t :: _ => t.bpm

/-- The full `maxTick` computation including the duration back-conversion (script.js lines
135-143): when no note exists and a numeric duration is present, ceil the
duration divided by the initial seconds-per-tick. -/
def midiMaxTick (m : MidiFile) (tempos : List TempoEv) (ppq : ℕ) : ℤ :=
  let mt := noteMaxTick m.tracks
  match m.duration with
  | some d => if mt = 0 then jceil (d / secPerTick (headBpm tempos) ppq) else (mt : ℤ)
  | none => (mt : ℤ)

/-- The per-beat computation of the loop body (script.js lines 166-188),
as a pure function of the beat index and the tempo-changed flag. -/
def beatAt (ppq : ℕ) (tempos : List TempoEv) (timeSigs : List TsEv)
    (i : ℕ) (tempoChanged : Bool) : Beat :=
  let tick := i * ppq
  let tsig := getTimeSigForTick timeSigs tick
  let seconds := ticksToSeconds tick tempos ppq
  let ms := jround (seconds * 1000)
  let lastTsTick := lastTsTickAt timeSigs tick
  let beatsSinceTs := (tick - lastTsTick) / ppq
  let measureBeatNumber := beatsSinceTs % tsig.numerator + 1
  let downbeat := if measureBeatNumber = 1 then 1 else 0
  { tick := tick, ms := ms, downbeat := downbeat,
    tempoAtTick := if tempoChanged then getTempoAtTick tempos tick else 0 }

/-- The test `prevTempo === null || currentTempo !== prevTempo` (script.js line 180). -/
def tempoChangedFlag (prev : Option ℚ) (current : ℚ) : Bool :=
  match prev with
  | none => true
  | some p => decide (current ≠ p)

/-- The beat-generation loop (script.js lines 164-189), with the remaining
iteration count (`lastBeatIndex - i + 1`) as fuel, the current beat index,
and the `prevTempo` state. -/
def beatLoop (ppq : ℕ) (maxTick : ℤ) (tempos : List TempoEv) (timeSigs : List TsEv) :
    ℕ → ℕ → Option ℚ → List Beat
  | 0, _, _ => []
  | fuel + 1, i, prevTempo =>
      let tick := i * ppq
      let tsig := getTimeSigForTick timeSigs tick
      if (tick : ℤ) > maxTick + ppq * tsig.numerator then []
      else
        let currentTempo := getTempoAtTick tempos tick
        beatAt ppq tempos timeSigs i (tempoChangedFlag prevTempo currentTempo) ::
          beatLoop ppq maxTick tempos timeSigs fuel (i + 1) (some currentTempo)

/-- The whole generator `generateBeatList(midi)` (script.js lines 121-192). -/
def generateBeatList (m : MidiFile) : List Beat :=
  let ppq := resolvePpq m.header
  let tempos := normTempos m.header.tempos
  let timeSigs := normTimeSigs m.header.timeSignatures
  let maxTick := midiMaxTick m tempos ppq
  let lastBeatIndex := jceil ((maxTick : ℚ) / ppq) + 4
  beatLoop ppq maxTick tempos timeSigs (lastBeatIndex + 1).toNat 0 none

/-- Structural validity of the parsed-MIDI input, per the spec data model
(section 3): positive BPMs, positive time-signature components, nonnegative
duration. -/
def ValidMidi (m : MidiFile) : Prop :=
  (∀ t ∈ m.header.tempos, 0 < t.bpm) ∧
  (∀ s ∈ m.header.timeSignatures, 0 < s.timeSignature.1 ∧ 0 < s.timeSignature.2) ∧
  0 ≤ m.duration.getD 0

instance (m : MidiFile) : Decidable (ValidMidi m) := by
  unfold ValidMidi; infer_instance

/-! ### Basic facts about normalization -/

instance : IsTotal TempoEv (fun a b => a.ticks ≤ b.ticks) :=
  ⟨fun a b => Nat.le_total a.ticks b.ticks⟩

instance : IsTrans TempoEv (fun a b => a.ticks ≤ b.ticks) :=
  ⟨fun _ _ _ h1 h2 => le_trans h1 h2⟩

instance : IsTotal TsEv (fun a b => a.ticks ≤ b.ticks) :=
  ⟨fun a b => Nat.le_total a.ticks b.ticks⟩

instance : IsTrans TsEv (fun a b => a.ticks ≤ b.ticks) :=
  ⟨fun _ _ _ h1 h2 => le_trans h1 h2⟩

theorem normTempos_sorted (raw : List RawTempo) :
    List.Pairwise (fun a b : TempoEv => a.ticks ≤ b.ticks) (normTempos raw) := by
  unfold normTempos
  have hs := List.sorted_insertionSort (fun a b : TempoEv => a.ticks ≤ b.ticks)
    (raw.map (fun t => ⟨t.ticks, (jround t.bpm : ℚ)⟩))
  cases h : List.insertionSort (fun a b : TempoEv => a.ticks ≤ b.ticks)
      (raw.map (fun t => ⟨t.ticks, (jround t.bpm : ℚ)⟩)) with
  | nil => simp
  | cons e rest =>
      rw [h] at hs
      dsimp only
      by_cases h0 : e.ticks ≠ 0
      · rw [if_pos h0]
        exact List.Pairwise.cons (fun x _ => Nat.zero_le _) hs
      · rw [if_neg h0]
        exact hs

theorem normTimeSigs_sorted (raw : List RawTimeSig) :
    List.Pairwise (fun a b : TsEv => a.ticks ≤ b.ticks) (normTimeSigs raw) := by
  unfold normTimeSigs
  have hs := List.sorted_insertionSort (fun a b : TsEv => a.ticks ≤ b.ticks)
    (raw.map (fun ts => ⟨ts.ticks, ts.timeSignature.1, ts.timeSignature.2⟩))
  cases h : List.insertionSort (fun a b : TsEv => a.ticks ≤ b.ticks)
      (raw.map (fun ts => ⟨ts.ticks, ts.timeSignature.1, ts.timeSignature.2⟩)) with
  | nil => simp
  | cons e rest => rw [h] at hs; exact hs

theorem normTempos_ne_nil (raw : List RawTempo) : normTempos raw ≠ [] := by
  unfold normTempos
  cases List.insertionSort (fun a b : TempoEv => a.ticks ≤ b.ticks)
      (raw.map (fun t => ⟨t.ticks, (jround t.bpm : ℚ)⟩)) with
  | nil => simp
  | cons e rest => by_cases h0 : e.ticks ≠ 0 <;> simp [h0]

theorem normTimeSigs_ne_nil (raw : List RawTimeSig) : normTimeSigs raw ≠ [] := by
  unfold normTimeSigs
  cases List.insertionSort (fun a b : TsEv => a.ticks ≤ b.ticks)
      (raw.map (fun ts => ⟨ts.ticks, ts.timeSignature.1, ts.timeSignature.2⟩)) with
  | nil => simp
  | cons e rest => simp

theorem normTempos_head_ticks (raw : List RawTempo) :
    ∃ e rest, normTempos raw = e :: rest ∧ e.ticks = 0 := by
  unfold normTempos
  cases List.insertionSort (fun a b : TempoEv => a.ticks ≤ b.ticks)
      (raw.map (fun t => ⟨t.ticks, (jround t.bpm : ℚ)⟩)) with
  | nil => exact ⟨⟨0, 120⟩, [], rfl, rfl⟩
  | cons e rest =>
      by_cases h0 : e.ticks ≠ 0
      · exact ⟨⟨0, e.bpm⟩, e :: rest, by simp [h0], rfl⟩
      · exact ⟨e, rest, by simp [h0], by simpa using h0⟩

/-- Every BPM in the normalized tempo list is the default 120 or the JS
rounding of some raw BPM. -/
theorem normTempos_bpm_mem (raw : List RawTempo) :
    ∀ e ∈ normTempos raw, e.bpm = 120 ∨ ∃ t ∈ raw, e.bpm = (jround t.bpm : ℚ) := by
  intro e he
  unfold normTempos at he
  have base : ∀ x : TempoEv,
      x ∈ List.insertionSort (fun a b : TempoEv => a.ticks ≤ b.ticks)
        (raw.map (fun t => ⟨t.ticks, (jround t.bpm : ℚ)⟩)) →
      ∃ t ∈ raw, x.bpm = (jround t.bpm : ℚ) := by
    intro x hx
    have := (List.perm_insertionSort (fun a b : TempoEv => a.ticks ≤ b.ticks)
      (raw.map (fun t => ⟨t.ticks, (jround t.bpm : ℚ)⟩))).mem_iff.1 hx
    rcases List.mem_map.1 this with ⟨t, ht, rfl⟩
    exact ⟨t, ht, rfl⟩
  revert he
  cases h : List.insertionSort (fun a b : TempoEv => a.ticks ≤ b.ticks)
      (raw.map (fun t => ⟨t.ticks, (jround t.bpm : ℚ)⟩)) with
  | nil => intro he; simp at he; subst he; left; rfl
  | cons e0 rest =>
      intro he
      dsimp only at he
      by_cases h0 : e0.ticks ≠ 0
      · rw [if_pos h0] at he
        rcases List.mem_cons.1 he with he | he
        · subst he
          rcases base e0 (h ▸ List.mem_cons_self e0 rest) with ⟨t, ht, hb⟩
          exact Or.inr ⟨t, ht, hb⟩
        · exact Or.inr (base e (h ▸ he))
      · rw [if_neg h0] at he
        exact Or.inr (base e (h ▸ he))

theorem jround_nonneg {q : ℚ} (h : 0 ≤ q) : 0 ≤ jround q := by
  unfold jround
  rw [Int.le_floor]
  push_cast
  linarith

theorem normTempos_bpm_nonneg (raw : List RawTempo)
    (h : ∀ t ∈ raw, 0 < t.bpm) : ∀ e ∈ normTempos raw, 0 ≤ e.bpm := by
  intro e he
  rcases normTempos_bpm_mem raw e he with h120 | ⟨t, ht, hb⟩
  · rw [h120]; norm_num
  · rw [hb]
    exact_mod_cast jround_nonneg (le_of_lt (h t ht))

/-- Every entry in the normalized time-signature list is the default 4/4 or
comes from a raw event. -/
theorem normTimeSigs_mem (raw : List RawTimeSig) :
    ∀ e ∈ normTimeSigs raw,
      e = ⟨0, 4, 4⟩ ∨ ∃ s ∈ raw, e = ⟨s.ticks, s.timeSignature.1, s.timeSignature.2⟩ := by
  intro e he
  unfold normTimeSigs at he
  have base : ∀ x : TsEv,
      x ∈ List.insertionSort (fun a b : TsEv => a.ticks ≤ b.ticks)
        (raw.map (fun ts => ⟨ts.ticks, ts.timeSignature.1, ts.timeSignature.2⟩)) →
      ∃ s ∈ raw, x = ⟨s.ticks, s.timeSignature.1, s.timeSignature.2⟩ := by
    intro x hx
    have := (List.perm_insertionSort (fun a b : TsEv => a.ticks ≤ b.ticks)
      (raw.map (fun ts => ⟨ts.ticks, ts.timeSignature.1, ts.timeSignature.2⟩))).mem_iff.1 hx
    rcases List.mem_map.1 this with ⟨s, hs, rfl⟩
    exact ⟨s, hs, rfl⟩
  revert he
  cases h : List.insertionSort (fun a b : TsEv => a.ticks ≤ b.ticks)
      (raw.map (fun ts => ⟨ts.ticks, ts.timeSignature.1, ts.timeSignature.2⟩)) with
  | nil => intro he; simp at he; subst he; left; rfl
  | cons e0 rest => intro he; exact Or.inr (base e (h ▸ he))

theorem normTimeSigs_numerator_pos (raw : List RawTimeSig)
    (h : ∀ s ∈ raw, 0 < s.timeSignature.1 ∧ 0 < s.timeSignature.2) :
    ∀ e ∈ normTimeSigs raw, 0 < e.numerator := by
  intro e he
  rcases normTimeSigs_mem raw e he with rfl | ⟨s, hs, rfl⟩
  · norm_num
  · exact (h s hs).1

theorem resolvePpq_pos (h : MidiHeader) : 0 < resolvePpq h := by
  unfold resolvePpq jsOrNat
  cases h.ppq with
  | none => cases h.ppqn with
    | none => norm_num
    | some n => dsimp only; split_ifs <;> omega
  | some n =>
      cases h.ppqn with
      | none => dsimp only; split_ifs <;> omega
      | some k => dsimp only; split_ifs <;> omega

theorem secPerTick_nonneg {bpm : ℚ} (h : 0 ≤ bpm) (ppq : ℕ) :
    0 ≤ secPerTick bpm ppq := by
  unfold secPerTick
  positivity

theorem headBpm_nonneg (raw : List RawTempo) (h : ∀ t ∈ raw, 0 < t.bpm) :
    0 ≤ headBpm (normTempos raw) := by
  unfold headBpm
  rcases normTempos_head_ticks raw with ⟨e, rest, heq, _⟩
  rw [heq]
  exact normTempos_bpm_nonneg raw h e (heq ▸ List.mem_cons_self e rest)

theorem jceil_nonneg {q : ℚ} (h : 0 ≤ q) : 0 ≤ jceil q := by
  unfold jceil
  have : ⌊-q⌋ ≤ 0 := by
    have : (⌊-q⌋ : ℚ) ≤ -q := Int.floor_le (-q)
    have h2 : (⌊-q⌋ : ℚ) ≤ 0 := by linarith
    exact_mod_cast h2
  omega

theorem midiMaxTick_nonneg (m : MidiFile) (hv : ValidMidi m) (ppq : ℕ) :
    0 ≤ midiMaxTick m (normTempos m.header.tempos) ppq := by
  unfold midiMaxTick
  cases hd : m.duration with
  | none => positivity
  | some d =>
      dsimp only
      split_ifs
      · apply jceil_nonneg
        apply div_nonneg
        · have := hv.2.2
          rw [hd] at this
          simpa using this
        · exact secPerTick_nonneg (headBpm_nonneg _ hv.1) ppq
      · positivity

/-! ### Claim C1: heads of the normalized sequences -/

/-- Counterexample to claim C1: a single time-signature event at tick 480 is
normalized to a sequence whose first entry has tick 480, not 0 — no synthetic
tick-0 time-signature entry is inserted. -/
theorem C1_counterexample :
    (normTimeSigs [⟨480, (3, 4)⟩]).head?.map TsEv.ticks = some 480 ∧
      some (480 : ℕ) ≠ some 0 := by
  constructor
  · rfl
  · decide

/-- Claim C1 (amended): after normalization the first tempo entry always has
tick 0 (sorting, default insertion and synthetic tick-0 insertion); the
normalized time-signature sequence is always nonempty, equals the default
`[4/4 at tick 0]` when the raw list is empty, and is sorted so that its first
entry carries the minimal tick — but when the earliest raw time-signature
event is at a nonzero tick, no synthetic tick-0 entry is inserted and the
head keeps that nonzero tick. -/
theorem C1_amended (rawT : List RawTempo) (rawTS : List RawTimeSig) :
    (normTempos rawT).head?.map TempoEv.ticks = some 0 ∧
    normTimeSigs rawTS ≠ [] ∧
    (rawTS = [] → normTimeSigs rawTS = [⟨0, 4, 4⟩]) ∧
    (∀ f, (normTimeSigs rawTS).head? = some f →
      ∀ e ∈ normTimeSigs rawTS, f.ticks ≤ e.ticks) := by
  refine ⟨?_, normTimeSigs_ne_nil rawTS, ?_, ?_⟩
  · rcases normTempos_head_ticks rawT with ⟨e, rest, heq, h0⟩
    rw [heq]
    simp [h0]
  · rintro rfl
    rfl
  · intro f hf e he
    have hs := normTimeSigs_sorted rawTS
    cases hns : normTimeSigs rawTS with
    | nil => rw [hns] at he; simp at he
    | cons g rest =>
        rw [hns] at hf hs he
        simp only [List.head?_cons, Option.some.injEq] at hf
        subst hf
        rcases List.mem_cons.1 he with rfl | he
        · exact le_refl _
        · exact (List.pairwise_cons.1 hs).1 e he

theorem C1_amended_witness : normTimeSigs [] = [⟨0, 4, 4⟩] :=
  (C1_amended [] []).2.2.1 rfl

/-! ### Claim C4: the integrator against its reference definition -/

/-- Reference definition, following the spec's words: sum, over each tempo
segment `[segment.tick, next.tick)` lying strictly before `targetTick`, the
segment's tick-span times its seconds-per-tick, the final (possibly partial)
segment truncated at `targetTick`. -/
def refTicksToSeconds (target : ℕ) (ppq : ℕ) : List TempoEv → ℚ
  | [] => 0
  | [cur] =>
      if cur.ticks < target then ((target : ℚ) - cur.ticks) * secPerTick cur.bpm ppq else 0
  | cur :: next :: rest =>
      (if cur.ticks < target then
        (((min next.ticks target : ℕ) : ℚ) - cur.ticks) * secPerTick cur.bpm ppq
      else 0)
      + refTicksToSeconds target ppq (next :: rest)

/-- The accumulator of the integrator loop factors out additively. -/
theorem ticksToSecondsGo_acc (target ppq : ℕ) :
    ∀ (l : List TempoEv) (acc : ℚ),
      ticksToSecondsGo target ppq l acc = acc + ticksToSecondsGo target ppq l 0 := by
  intro l
  induction l with
  | nil => intro acc; simp [ticksToSecondsGo]
  | cons cur rest ih =>
      intro acc
      cases rest with
      | nil =>
          by_cases h : target ≤ cur.ticks <;> simp [ticksToSecondsGo, h] <;> ring
      | cons next rest2 =>
          by_cases h : target ≤ cur.ticks
          · simp [ticksToSecondsGo, h]
          · by_cases h2 : target ≤ next.ticks
            · simp [ticksToSecondsGo, h, h2]
            · simp only [ticksToSecondsGo, if_neg h, if_neg h2]
              rw [ih, ih (0 + _)]
              ring

/-- The reference sum vanishes when every segment starts at or after the
target. -/
theorem refTicksToSeconds_zero (target ppq : ℕ) :
    ∀ l : List TempoEv, (∀ e ∈ l, target ≤ e.ticks) → refTicksToSeconds target ppq l = 0 := by
  intro l
  induction l with
  | nil => intro _; rfl
  | cons cur rest ih =>
      intro h
      cases rest with
      | nil =>
          have : ¬ cur.ticks < target := not_lt.2 (h cur (List.mem_cons_self _ _))
          simp [refTicksToSeconds, this]
      | cons next rest2 =>
          have h1 : ¬ cur.ticks < target := not_lt.2 (h cur (List.mem_cons_self _ _))
          have h2 : ∀ e ∈ next :: rest2, target ≤ e.ticks := fun e he => h e (List.mem_cons_of_mem _ he)
          simp [refTicksToSeconds, h1, ih h2]

/-- Claim C4: on tick-sorted tempo sequences with positive BPMs and positive
PPQ, `ticksToSeconds` computes exactly the reference segment sum. -/
theorem C4_ticksToSeconds_eq_ref (target ppq : ℕ) (tempos : List TempoEv)
    (hsort : List.Pairwise (fun a b : TempoEv => a.ticks ≤ b.ticks) tempos)
    (hbpm : ∀ t ∈ tempos, 0 < t.bpm) (hppq : 0 < ppq) :
    ticksToSeconds target tempos ppq = refTicksToSeconds target ppq tempos := by
  unfold ticksToSeconds
  induction tempos with
  | nil => rfl
  | cons cur rest ih =>
      cases rest with
      | nil =>
          by_cases h : target ≤ cur.ticks
          · simp [ticksToSecondsGo, refTicksToSeconds, h, not_lt.2 h]
          · have : cur.ticks < target := lt_of_not_le h
            simp [ticksToSecondsGo, refTicksToSeconds, h, this]
      | cons next rest2 =>
          have hcn : cur.ticks ≤ next.ticks :=
            (List.pairwise_cons.1 hsort).1 next (List.mem_cons_self _ _)
          have htail : ∀ e ∈ next :: rest2, cur.ticks ≤ e.ticks :=
            (List.pairwise_cons.1 hsort).1
          have hsort2 : List.Pairwise (fun a b : TempoEv => a.ticks ≤ b.ticks) (next :: rest2) :=
            (List.pairwise_cons.1 hsort).2
          have hbpm2 : ∀ t ∈ next :: rest2, 0 < t.bpm :=
            fun t ht => hbpm t (List.mem_cons_of_mem _ ht)
          by_cases h : target ≤ cur.ticks
          · have hz : refTicksToSeconds target ppq (next :: rest2) = 0 :=
              refTicksToSeconds_zero target ppq _
                (fun e he => le_trans h (htail e he))
            simp [ticksToSecondsGo, refTicksToSeconds, h, not_lt.2 h, hz]
          · have hct : cur.ticks < target := lt_of_not_le h
            by_cases h2 : target ≤ next.ticks
            · have hz : refTicksToSeconds target ppq (next :: rest2) = 0 :=
                refTicksToSeconds_zero target ppq _ (by
                  intro e he
                  rcases List.mem_cons.1 he with rfl | he
                  · exact h2
                  · exact le_trans h2 ((List.pairwise_cons.1 hsort2).1 e he))
              have hmin : min next.ticks target = target := min_eq_right h2
              simp [ticksToSecondsGo, refTicksToSeconds, h, h2, hct, hz, hmin]
            · have hnt : next.ticks < target := lt_of_not_le h2
              have hmin : min next.ticks target = next.ticks := min_eq_left (le_of_lt hnt)
              simp only [ticksToSecondsGo, if_neg h, if_neg h2, refTicksToSeconds,
                if_pos hct, hmin]
              rw [ticksToSecondsGo_acc, ih hsort2 hbpm2]
              ring

/-! ### Claim C5: monotonicity and boundary exactness of the integrator -/

/-- The cumulative sum of the segment spans strictly before boundary `i`. -/
def cumBoundary (ppq : ℕ) : List TempoEv → ℕ → ℚ
  | _, 0 => 0
  | [], _ + 1 => 0
  | [_], _ + 1 => 0
  | a :: b :: rest, i + 1 =>
      ((b.ticks : ℚ) - a.ticks) * secPerTick a.bpm ppq + cumBoundary ppq (b :: rest) i

theorem refTicksToSeconds_mono (ppq : ℕ) {t1 t2 : ℕ} (ht : t1 ≤ t2) :
    ∀ l : List TempoEv,
      List.Pairwise (fun a b : TempoEv => a.ticks ≤ b.ticks) l →
      (∀ t ∈ l, 0 < t.bpm) →
      refTicksToSeconds t1 ppq l ≤ refTicksToSeconds t2 ppq l := by
  intro l
  induction l with
  | nil => intro _ _; exact le_refl _
  | cons cur rest ih =>
      intro hsort hbpm
      have hs : 0 ≤ secPerTick cur.bpm ppq :=
        secPerTick_nonneg (le_of_lt (hbpm cur (List.mem_cons_self _ _))) ppq
      cases rest with
      | nil =>
          by_cases h1 : cur.ticks < t1
          · have h2 : cur.ticks < t2 := lt_of_lt_of_le h1 ht
            simp only [refTicksToSeconds, if_pos h1, if_pos h2]
            apply mul_le_mul_of_nonneg_right _ hs
            have : (t1 : ℚ) ≤ t2 := by exact_mod_cast ht
            linarith
          · by_cases h2 : cur.ticks < t2
            · simp only [refTicksToSeconds, if_neg h1, if_pos h2]
              apply mul_nonneg _ hs
              have : (cur.ticks : ℚ) ≤ t2 := by exact_mod_cast le_of_lt h2
              linarith
            · simp only [refTicksToSeconds, if_neg h1, if_neg h2]
              exact le_refl _
      | cons next rest2 =>
          have hcn : cur.ticks ≤ next.ticks :=
            (List.pairwise_cons.1 hsort).1 next (List.mem_cons_self _ _)
          have hrec := ih (List.pairwise_cons.1 hsort).2
            (fun t htm => hbpm t (List.mem_cons_of_mem _ htm))
          have hterm :
              (if cur.ticks < t1 then
                (((min next.ticks t1 : ℕ) : ℚ) - cur.ticks) * secPerTick cur.bpm ppq
              else 0) ≤
              (if cur.ticks < t2 then
                (((min next.ticks t2 : ℕ) : ℚ) - cur.ticks) * secPerTick cur.bpm ppq
              else 0) := by
            by_cases h1 : cur.ticks < t1
            · have h2 : cur.ticks < t2 := lt_of_lt_of_le h1 ht
              rw [if_pos h1, if_pos h2]
              apply mul_le_mul_of_nonneg_right _ hs
              have : min next.ticks t1 ≤ min next.ticks t2 := min_le_min (le_refl _) ht
              have : ((min next.ticks t1 : ℕ) : ℚ) ≤ ((min next.ticks t2 : ℕ) : ℚ) := by
                exact_mod_cast this
              linarith
            · by_cases h2 : cur.ticks < t2
              · rw [if_neg h1, if_pos h2]
                apply mul_nonneg _ hs
                have hm : cur.ticks ≤ min next.ticks t2 := le_min hcn (le_of_lt h2)
                have : ((cur.ticks : ℕ) : ℚ) ≤ ((min next.ticks t2 : ℕ) : ℚ) := by
                  exact_mod_cast hm
                linarith
              · rw [if_neg h1, if_neg h2]
          simpa only [refTicksToSeconds] using add_le_add hterm hrec

/-- On sorted lists, the list head's tick bounds every entry's tick. -/
theorem sorted_head_le_get {x : TempoEv} {xs : List TempoEv}
    (h : List.Pairwise (fun a b : TempoEv => a.ticks ≤ b.ticks) (x :: xs)) :
    ∀ (i : ℕ) (hi : i < (x :: xs).length), x.ticks ≤ ((x :: xs).get ⟨i, hi⟩).ticks := by
  intro i hi
  cases i with
  | zero => exact le_refl _
  | succ j =>
      have hj : j < xs.length := Nat.lt_of_succ_lt_succ (by simpa using hi)
      have hget : (x :: xs).get ⟨j + 1, hi⟩ = xs.get ⟨j, hj⟩ := rfl
      rw [hget]
      exact (List.pairwise_cons.1 h).1 _ (List.get_mem xs j hj)

/-- The reference sum evaluated at a boundary tick is the cumulative sum of
the strictly earlier segments. -/
theorem refTicksToSeconds_boundary (ppq : ℕ) :
    ∀ (l : List TempoEv),
      List.Pairwise (fun a b : TempoEv => a.ticks ≤ b.ticks) l →
      ∀ (i : ℕ) (hi : i < l.length),
        refTicksToSeconds (l.get ⟨i, hi⟩).ticks ppq l = cumBoundary ppq l i := by
  intro l
  induction l with
  | nil => intro _ i hi; simp at hi
  | cons a rest ih =>
      intro hsort i hi
      cases i with
      | zero =>
          have hz : refTicksToSeconds ((a :: rest).get ⟨0, hi⟩).ticks ppq (a :: rest) = 0 := by
            apply refTicksToSeconds_zero
            intro e he
            rcases List.mem_cons.1 he with rfl | he
            · exact le_refl _
            · exact (List.pairwise_cons.1 hsort).1 e he
          rw [hz]
          cases rest <;> rfl
      | succ j =>
          cases rest with
          | nil => simp at hi
          | cons b rest2 =>
              have hsort2 : List.Pairwise (fun x y : TempoEv => x.ticks ≤ y.ticks)
                  (b :: rest2) := (List.pairwise_cons.1 hsort).2
              have hj : j < (b :: rest2).length := Nat.lt_of_succ_lt_succ (by simpa using hi)
              have hget : ((a :: b :: rest2).get ⟨j + 1, hi⟩) = (b :: rest2).get ⟨j, hj⟩ := rfl
              have htarget : b.ticks ≤ ((b :: rest2).get ⟨j, hj⟩).ticks :=
                sorted_head_le_get hsort2 j hj
              have hab : a.ticks ≤ b.ticks :=
                (List.pairwise_cons.1 hsort).1 b (List.mem_cons_self _ _)
              have hrec := ih hsort2 j hj
              rw [hget]
              show (if a.ticks < ((b :: rest2).get ⟨j, hj⟩).ticks then
                      (((min b.ticks ((b :: rest2).get ⟨j, hj⟩).ticks : ℕ) : ℚ) - a.ticks) *
                        secPerTick a.bpm ppq
                    else 0)
                  + refTicksToSeconds ((b :: rest2).get ⟨j, hj⟩).ticks ppq (b :: rest2)
                  = ((b.ticks : ℚ) - a.ticks) * secPerTick a.bpm ppq +
                      cumBoundary ppq (b :: rest2) j
              rw [hrec, min_eq_left htarget]
              by_cases hlt : a.ticks < ((b :: rest2).get ⟨j, hj⟩).ticks
              · rw [if_pos hlt]
              · have hba : b.ticks = a.ticks :=
                  le_antisymm (le_trans htarget (not_lt.1 hlt)) hab
                rw [if_neg hlt, hba]
                ring

/-- Claim C5: on tick-sorted tempo sequences with positive BPMs and positive
PPQ, `ticksToSeconds` is non-decreasing in the tick argument, and at each
tempo-change boundary `tempos[i].ticks` it reproduces the cumulative sum of
all prior segments exactly. -/
theorem C5_monotone_and_boundary_exact (tempos : List TempoEv) (ppq : ℕ)
    (hsort : List.Pairwise (fun a b : TempoEv => a.ticks ≤ b.ticks) tempos)
    (hbpm : ∀ t ∈ tempos, 0 < t.bpm) (hppq : 0 < ppq) :
    (∀ t1 t2 : ℕ, t1 < t2 →
      ticksToSeconds t1 tempos ppq ≤ ticksToSeconds t2 tempos ppq) ∧
    (∀ (i : ℕ) (hi : i < tempos.length),
      ticksToSeconds (tempos.get ⟨i, hi⟩).ticks tempos ppq = cumBoundary ppq tempos i) := by
  constructor
  · intro t1 t2 ht
    rw [C4_ticksToSeconds_eq_ref t1 ppq tempos hsort hbpm hppq,
      C4_ticksToSeconds_eq_ref t2 ppq tempos hsort hbpm hppq]
    exact refTicksToSeconds_mono ppq (le_of_lt ht) tempos hsort hbpm
  · intro i hi
    rw [C4_ticksToSeconds_eq_ref _ ppq tempos hsort hbpm hppq]
    exact refTicksToSeconds_boundary ppq tempos hsort i hi

theorem C5_witness :
    ticksToSeconds 480 [(⟨0, 120⟩ : TempoEv), ⟨960, 60⟩] 480 ≤
      ticksToSeconds 960 [(⟨0, 120⟩ : TempoEv), ⟨960, 60⟩] 480 ∧
    ticksToSeconds 960 [(⟨0, 120⟩ : TempoEv), ⟨960, 60⟩] 480 =
      cumBoundary 480 [(⟨0, 120⟩ : TempoEv), ⟨960, 60⟩] 1 :=
  ⟨(C5_monotone_and_boundary_exact [(⟨0, 120⟩ : TempoEv), ⟨960, 60⟩] 480
      (by decide) (by decide) (by decide)).1 480 960 (by decide),
    (C5_monotone_and_boundary_exact [(⟨0, 120⟩ : TempoEv), ⟨960, 60⟩] 480
      (by decide) (by decide) (by decide)).2 1 (by decide)⟩

theorem C4_witness :
    List.Pairwise (fun a b : TempoEv => a.ticks ≤ b.ticks)
        [(⟨0, 120⟩ : TempoEv), ⟨960, 60⟩] ∧
      ticksToSeconds 1440 [(⟨0, 120⟩ : TempoEv), ⟨960, 60⟩] 480 =
        refTicksToSeconds 1440 480 [(⟨0, 120⟩ : TempoEv), ⟨960, 60⟩] :=
  ⟨by decide, C4_ticksToSeconds_eq_ref 1440 480 _ (by decide) (by decide) (by decide)⟩

/-! ### Claim C7: tempo-change annotation on a concrete input -/

/-- Claim C7: with tempo events `[{tick 0, 120 BPM}, {tick 1920, 140 BPM}]`
and PPQ 480, the grid is five beats; beat 0 carries annotation 120, beats
1-3 carry the sentinel 0, and the beat at index 4 (tick 1920) carries 140. -/
theorem C7_tempo_annotations :
    generateBeatList ⟨⟨some 480, none, [⟨0, 120⟩, ⟨1920, 140⟩], []⟩, [], none⟩ =
      [⟨0, 0, 1, 120⟩, ⟨480, 500, 0, 0⟩, ⟨960, 1000, 0, 0⟩,
       ⟨1440, 1500, 0, 0⟩, ⟨1920, 2000, 1, 140⟩] := by
  norm_num [generateBeatList, resolvePpq, jsOrNat, normTempos, normTimeSigs,
    List.insertionSort, List.orderedInsert, midiMaxTick, noteMaxTick, jceil,
    beatLoop, beatAt, tempoChangedFlag, getTempoAtTick, getTimeSigForTick,
    lastTempoLE, lastTsLE, lastTsTickGo, lastTsTickAt, ticksToSeconds,
    ticksToSecondsGo, secPerTick, headBpm, jround]

/-! ### Claim C10: BPMs are rounded before any time integration -/

theorem jround_intCast (k : ℤ) : jround (k : ℚ) = k := by
  unfold jround
  rw [add_comm, Int.floor_add_int]
  norm_num

/-- Claim C10: normalization rounds every BPM to an integer, and the whole
generator depends on the raw tempo list only through those rounded BPMs:
pre-rounding every raw BPM leaves the generated grid unchanged. -/
theorem C10_bpm_rounded_before_integration (m : MidiFile) :
    (∀ e ∈ normTempos m.header.tempos, e.bpm.den = 1) ∧
    generateBeatList m =
      generateBeatList ⟨⟨m.header.ppq, m.header.ppqn,
        m.header.tempos.map (fun t => ⟨t.ticks, (jround t.bpm : ℚ)⟩),
        m.header.timeSignatures⟩, m.tracks, m.duration⟩ := by
  have hnorm : normTempos (m.header.tempos.map
      (fun t => (⟨t.ticks, (jround t.bpm : ℚ)⟩ : RawTempo))) = normTempos m.header.tempos := by
    unfold normTempos
    rw [List.map_map]
    have hfun : ((fun t : RawTempo => (⟨t.ticks, (jround t.bpm : ℚ)⟩ : TempoEv)) ∘
        (fun t : RawTempo => (⟨t.ticks, (jround t.bpm : ℚ)⟩ : RawTempo))) =
        (fun t : RawTempo => (⟨t.ticks, (jround t.bpm : ℚ)⟩ : TempoEv)) := by
      funext t
      simp only [Function.comp]
      congr 1
      exact_mod_cast congrArg (fun z : ℤ => (z : ℚ)) (jround_intCast (jround t.bpm))
    rw [hfun]
  constructor
  · intro e he
    rcases normTempos_bpm_mem m.header.tempos e he with h120 | ⟨t, ht, hb⟩
    · rw [h120]; rfl
    · rw [hb]; exact Rat.den_intCast _
  · unfold generateBeatList
    dsimp only
    rw [hnorm]
    rfl

theorem C10_witness :
    (∀ e ∈ normTempos [(⟨0, 513/4⟩ : RawTempo)], e.bpm.den = 1) ∧
      generateBeatList ⟨⟨some 480, none, [⟨0, 513/4⟩], []⟩, [], none⟩ =
        generateBeatList ⟨⟨some 480, none,
          [(⟨0, 513/4⟩ : RawTempo)].map (fun t => ⟨t.ticks, (jround t.bpm : ℚ)⟩),
          []⟩, [], none⟩ :=
  C10_bpm_rounded_before_integration ⟨⟨some 480, none, [⟨0, 513/4⟩], []⟩, [], none⟩

/-! ### Shape of the generated grid -/

/-- For valid input the grid is nonempty and starts with beat index 0,
whose tempo-changed flag is true. -/
theorem generateBeatList_cons (m : MidiFile) (hv : ValidMidi m) :
    ∃ rest, generateBeatList m =
      beatAt (resolvePpq m.header) (normTempos m.header.tempos)
        (normTimeSigs m.header.timeSignatures) 0 true :: rest := by
  unfold generateBeatList
  have hM0 : 0 ≤ midiMaxTick m (normTempos m.header.tempos) (resolvePpq m.header) :=
    midiMaxTick_nonneg m hv (resolvePpq m.header)
  have hq : (0 : ℚ) ≤ (midiMaxTick m (normTempos m.header.tempos) (resolvePpq m.header) : ℚ) /
      (resolvePpq m.header : ℚ) := by
    apply div_nonneg
    · exact_mod_cast hM0
    · positivity
  have hceil : 0 ≤ jceil ((midiMaxTick m (normTempos m.header.tempos)
      (resolvePpq m.header) : ℚ) / (resolvePpq m.header : ℚ)) := jceil_nonneg hq
  have hN : (jceil ((midiMaxTick m (normTempos m.header.tempos)
        (resolvePpq m.header) : ℚ) / (resolvePpq m.header : ℚ)) + 4 + 1).toNat =
      (jceil ((midiMaxTick m (normTempos m.header.tempos)
        (resolvePpq m.header) : ℚ) / (resolvePpq m.header : ℚ)) + 4).toNat + 1 := by
    omega
  dsimp only
  rw [hN]
  simp only [beatLoop]
  have hbreak : ¬ ((0 * resolvePpq m.header : ℕ) : ℤ) >
      midiMaxTick m (normTempos m.header.tempos) (resolvePpq m.header) +
        (resolvePpq m.header : ℤ) *
          (getTimeSigForTick (normTimeSigs m.header.timeSignatures)
            (0 * resolvePpq m.header)).numerator := by
    have hnum : (0 : ℤ) ≤ (resolvePpq m.header : ℤ) *
        ((getTimeSigForTick (normTimeSigs m.header.timeSignatures)
          (0 * resolvePpq m.header)).numerator : ℤ) := by positivity
    push_cast
    push_cast at hnum
    omega
  rw [if_neg hbreak]
  exact ⟨_, rfl⟩

/-! ### Claim C6: beat 0's tempo annotation -/

/-- When raw tempo ticks are pairwise distinct, the normalized list is
strictly increasing in ticks. -/
theorem normTempos_strict (raw : List RawTempo)
    (hnd : (raw.map RawTempo.ticks).Nodup) :
    List.Pairwise (fun a b : TempoEv => a.ticks < b.ticks) (normTempos raw) := by
  have hmapped : ((raw.map (fun t => (⟨t.ticks, (jround t.bpm : ℚ)⟩ : TempoEv))).map
      TempoEv.ticks) = raw.map RawTempo.ticks := by
    rw [List.map_map]; rfl
  have hnd2 : ((raw.map (fun t => (⟨t.ticks, (jround t.bpm : ℚ)⟩ : TempoEv))).map
      TempoEv.ticks).Nodup := by rw [hmapped]; exact hnd
  have hperm := List.perm_insertionSort (fun a b : TempoEv => a.ticks ≤ b.ticks)
    (raw.map (fun t => (⟨t.ticks, (jround t.bpm : ℚ)⟩ : TempoEv)))
  have hnd3 : ((List.insertionSort (fun a b : TempoEv => a.ticks ≤ b.ticks)
      (raw.map (fun t => (⟨t.ticks, (jround t.bpm : ℚ)⟩ : TempoEv)))).map
      TempoEv.ticks).Nodup := ((hperm.map TempoEv.ticks).nodup_iff).2 hnd2
  have hne : List.Pairwise (fun a b : TempoEv => a.ticks ≠ b.ticks)
      (List.insertionSort (fun a b : TempoEv => a.ticks ≤ b.ticks)
        (raw.map (fun t => (⟨t.ticks, (jround t.bpm : ℚ)⟩ : TempoEv)))) :=
    (List.pairwise_map).1 hnd3
  have hle := List.sorted_insertionSort (fun a b : TempoEv => a.ticks ≤ b.ticks)
    (raw.map (fun t => (⟨t.ticks, (jround t.bpm : ℚ)⟩ : TempoEv)))
  have hlt : List.Pairwise (fun a b : TempoEv => a.ticks < b.ticks)
      (List.insertionSort (fun a b : TempoEv => a.ticks ≤ b.ticks)
        (raw.map (fun t => (⟨t.ticks, (jround t.bpm : ℚ)⟩ : TempoEv)))) := by
    have := hle.and hne
    exact this.imp (fun h => lt_of_le_of_ne h.1 h.2)
  unfold normTempos
  revert hlt
  cases List.insertionSort (fun a b : TempoEv => a.ticks ≤ b.ticks)
      (raw.map (fun t => (⟨t.ticks, (jround t.bpm : ℚ)⟩ : TempoEv))) with
  | nil => intro _; simp
  | cons e rest =>
      intro hlt
      dsimp only
      by_cases h0 : e.ticks ≠ 0
      · rw [if_pos h0]
        refine List.Pairwise.cons ?_ hlt
        intro x hx
        have h00 : (⟨0, e.bpm⟩ : TempoEv).ticks = 0 := rfl
        rw [h00]
        rcases List.mem_cons.1 hx with rfl | hx
        · omega
        · have := (List.pairwise_cons.1 hlt).1 x hx
          omega
      · rw [if_neg h0]
        exact hlt

/-- On a strictly tick-sorted list headed by a tick-0 entry, the tempo lookup
at tick 0 returns the head's BPM. -/
theorem getTempoAtTick_head_zero (e : TempoEv) (rest : List TempoEv)
    (hstrict : List.Pairwise (fun a b : TempoEv => a.ticks < b.ticks) (e :: rest))
    (h0 : e.ticks = 0) :
    getTempoAtTick (e :: rest) 0 = e.bpm := by
  unfold getTempoAtTick
  cases rest with
  | nil => rfl
  | cons f rest2 =>
      have hf : e.ticks < f.ticks :=
        (List.pairwise_cons.1 hstrict).1 f (List.mem_cons_self _ _)
      have : ¬ f.ticks ≤ 0 := by omega
      simp only [lastTempoLE, if_neg this]

theorem jround_ge_one {q : ℚ} (h : 1/2 ≤ q) : 1 ≤ jround q := by
  unfold jround
  rw [Int.le_floor]
  push_cast
  linarith

theorem headBpm_ne_zero (raw : List RawTempo)
    (h : ∀ t ∈ raw, 1/2 ≤ t.bpm) : headBpm (normTempos raw) ≠ 0 := by
  rcases normTempos_head_ticks raw with ⟨e, rest, heq, _⟩
  have hmem : e ∈ normTempos raw := heq ▸ List.mem_cons_self e rest
  have hb := normTempos_bpm_mem raw e hmem
  have hh : headBpm (normTempos raw) = e.bpm := by
    unfold headBpm; rw [heq]
  rw [hh]
  rcases hb with h120 | ⟨t, ht, hbj⟩
  · rw [h120]; norm_num
  · rw [hbj]
    have h1 : 1 ≤ jround t.bpm := jround_ge_one (h t ht)
    intro hc
    have : jround t.bpm = 0 := by exact_mod_cast hc
    omega

/-- Counterexample to claim C6: `tempos = [{tick 0, bpm 0.3}]` is valid per
the data model (positive BPM), but `Math.round(0.3) = 0`, so beat 0's tempo
annotation is the sentinel value 0. -/
theorem C6_counterexample :
    ValidMidi ⟨⟨some 480, none, [⟨0, 3/10⟩], []⟩, [], none⟩ ∧
      (generateBeatList ⟨⟨some 480, none, [⟨0, 3/10⟩], []⟩, [], none⟩).head?.map
        Beat.tempoAtTick = some 0 := by
  constructor
  · refine ⟨?_, ?_, ?_⟩ <;> norm_num [ValidMidi]
  · norm_num [generateBeatList, resolvePpq, jsOrNat, normTempos, normTimeSigs,
      List.insertionSort, List.orderedInsert, midiMaxTick, noteMaxTick, jceil,
      beatLoop, beatAt, tempoChangedFlag, getTempoAtTick, getTimeSigForTick,
      lastTempoLE, lastTsLE, lastTsTickGo, lastTsTickAt, ticksToSeconds,
      ticksToSecondsGo, secPerTick, headBpm, jround]

/-- Claim C6 (amended): for valid input whose raw tempo ticks are pairwise
distinct, beat 0 exists and carries the tempo active at tick 0, which is the
first normalized entry's BPM; this annotation differs from the "unchanged"
sentinel 0 whenever every raw BPM is at least 0.5 (so that it rounds to a
nonzero integer) — for smaller positive BPMs the rounded value is itself 0
and coincides with the sentinel. -/
theorem C6_amended (m : MidiFile) (hv : ValidMidi m)
    (hnd : (m.header.tempos.map RawTempo.ticks).Nodup)
    (hbpm : ∀ t ∈ m.header.tempos, 1/2 ≤ t.bpm) :
    ∃ b rest, generateBeatList m = b :: rest ∧
      b.tempoAtTick = getTempoAtTick (normTempos m.header.tempos) 0 ∧
      b.tempoAtTick = headBpm (normTempos m.header.tempos) ∧
      b.tempoAtTick ≠ 0 := by
  rcases generateBeatList_cons m hv with ⟨rest, hcons⟩
  refine ⟨_, rest, hcons, ?_, ?_, ?_⟩
  · simp [beatAt]
  · have hstrict := normTempos_strict m.header.tempos hnd
    rcases normTempos_head_ticks m.header.tempos with ⟨e, erest, heq, h0⟩
    rw [heq] at hstrict
    have hg : getTempoAtTick (normTempos m.header.tempos) 0 = e.bpm := by
      rw [heq]
      exact getTempoAtTick_head_zero e erest hstrict h0
    have hh : headBpm (normTempos m.header.tempos) = e.bpm := by
      unfold headBpm; rw [heq]
    simp [beatAt, hg, hh]
  · have hstrict := normTempos_strict m.header.tempos hnd
    rcases normTempos_head_ticks m.header.tempos with ⟨e, erest, heq, h0⟩
    rw [heq] at hstrict
    have hg : getTempoAtTick (normTempos m.header.tempos) 0 = e.bpm := by
      rw [heq]
      exact getTempoAtTick_head_zero e erest hstrict h0
    have hh : headBpm (normTempos m.header.tempos) = e.bpm := by
      rw [heq]; rfl
    have hne := headBpm_ne_zero m.header.tempos hbpm
    simp [beatAt, hg, hh ▸ hne]

theorem C6_amended_witness :
    ∃ b rest,
      generateBeatList ⟨⟨some 480, none, [⟨0, 120⟩], []⟩, [], none⟩ = b :: rest ∧
      b.tempoAtTick = getTempoAtTick (normTempos [⟨0, 120⟩]) 0 ∧
      b.tempoAtTick = headBpm (normTempos [⟨0, 120⟩]) ∧
      b.tempoAtTick ≠ 0 :=
  C6_amended ⟨⟨some 480, none, [⟨0, 120⟩], []⟩, [], none⟩
    (by refine ⟨?_, ?_, ?_⟩ <;> norm_num [ValidMidi])
    (by decide) (by norm_num)

/-! ### Claim C8: totality and the degenerate grid -/

theorem beatAt_deg_downbeat (P : ℕ) (hP : 0 < P) (i : ℕ) (ch : Bool) :
    (beatAt P [⟨0, 120⟩] [⟨0, 4, 4⟩] i ch).downbeat = if i % 4 = 0 then 1 else 0 := by
  unfold beatAt
  dsimp only
  have h1 : lastTsTickAt [⟨0, 4, 4⟩] (i * P) = 0 := by
    simp [lastTsTickAt, lastTsTickGo]
  have h2 : getTimeSigForTick [⟨0, 4, 4⟩] (i * P) = ⟨0, 4, 4⟩ := rfl
  rw [h1, h2]
  have h3 : (i * P - 0) / P = i := by
    simp [Nat.mul_div_cancel i hP]
  rw [h3]
  by_cases h : i % 4 = 0 <;> simp [h] <;> omega

theorem beatAt_deg_tempo (P : ℕ) (i : ℕ) (ch : Bool) :
    (beatAt P [⟨0, 120⟩] [⟨0, 4, 4⟩] i ch).tempoAtTick = if ch then 120 else 0 := by
  unfold beatAt
  dsimp only
  rfl

theorem beatLoop_deg (P : ℕ) (hP : 0 < P) :
    beatLoop P 0 [⟨0, 120⟩] [⟨0, 4, 4⟩] 5 0 none =
      [beatAt P [⟨0, 120⟩] [⟨0, 4, 4⟩] 0 true,
       beatAt P [⟨0, 120⟩] [⟨0, 4, 4⟩] 1 false,
       beatAt P [⟨0, 120⟩] [⟨0, 4, 4⟩] 2 false,
       beatAt P [⟨0, 120⟩] [⟨0, 4, 4⟩] 3 false,
       beatAt P [⟨0, 120⟩] [⟨0, 4, 4⟩] 4 false] := by
  have hP0 : (0 : ℤ) ≤ (P : ℤ) := Int.natCast_nonneg P
  simp only [beatLoop, getTimeSigForTick, lastTsLE, getTempoAtTick, lastTempoLE,
    tempoChangedFlag]
  split_ifs <;> first
    | (push_cast at *; constructor <;> norm_num) <;> rfl
    | (exfalso; push_cast at *; linarith)
    | (norm_num)

/-- Claim C8: on structurally valid input the generator is total and returns
a non-empty beat list; in the degenerate case (no tempo events, no
time-signature events, no tracks, no duration) it returns exactly five beats
computed from the defaults 120 BPM and 4/4: downbeats at indices 0 and 4,
tempo annotation 120 on beat 0 and the sentinel 0 elsewhere.  (Totality is
inherent to the embedding: `generateBeatList` is a total function.) -/
theorem C8_total_and_degenerate (m : MidiFile) (hv : ValidMidi m) :
    generateBeatList m ≠ [] ∧
    (m.header.tempos = [] → m.header.timeSignatures = [] → m.tracks = [] →
      m.duration = none →
      5 ≤ (generateBeatList m).length ∧
      (generateBeatList m).map (fun b => (b.downbeat, b.tempoAtTick)) =
        [(1, 120), (0, 0), (0, 0), (0, 0), (1, 0)]) := by
  constructor
  · rcases generateBeatList_cons m hv with ⟨rest, hcons⟩
    rw [hcons]
    exact List.cons_ne_nil _ _
  · intro h1 h2 h3 h4
    obtain ⟨⟨a, b, rawT, rawS⟩, tracks, dur⟩ := m
    simp only [MidiHeader.tempos] at h1
    simp only [MidiHeader.timeSignatures] at h2
    simp only [MidiFile.tracks] at h3
    simp only [MidiFile.duration] at h4
    subst h1 h2 h3 h4
    have hP : 0 < resolvePpq ⟨a, b, [], []⟩ := resolvePpq_pos _
    have hgen : generateBeatList ⟨⟨a, b, [], []⟩, [], none⟩ =
        beatLoop (resolvePpq ⟨a, b, [], []⟩) 0 [⟨0, 120⟩] [⟨0, 4, 4⟩] 5 0 none := by
      unfold generateBeatList
      dsimp only
      have hM : midiMaxTick ⟨⟨a, b, [], []⟩, [], none⟩ (normTempos []) (resolvePpq ⟨a, b, [], []⟩)
          = 0 := rfl
      rw [hM]
      have hfive : (jceil (((0 : ℤ) : ℚ) / (resolvePpq ⟨a, b, [], []⟩ : ℚ)) + 4 + 1).toNat
          = 5 := by
        norm_num [jceil]
        rfl
      rw [hfive]
      rfl
    rw [hgen, beatLoop_deg _ hP]
    refine ⟨by simp, ?_⟩
    simp only [List.map_cons, List.map_nil, beatAt_deg_downbeat _ hP, beatAt_deg_tempo]
    norm_num

theorem C8_witness :
    generateBeatList ⟨⟨none, none, [], []⟩, [], none⟩ ≠ [] ∧
      5 ≤ (generateBeatList ⟨⟨none, none, [], []⟩, [], none⟩).length ∧
      (generateBeatList ⟨⟨none, none, [], []⟩, [], none⟩).map
          (fun b => (b.downbeat, b.tempoAtTick)) =
        [(1, 120), (0, 0), (0, 0), (0, 0), (1, 0)] :=
  ⟨(C8_total_and_degenerate ⟨⟨none, none, [], []⟩, [], none⟩
      (by refine ⟨?_, ?_, ?_⟩ <;> simp [ValidMidi])).1,
    (C8_total_and_degenerate ⟨⟨none, none, [], []⟩, [], none⟩
      (by refine ⟨?_, ?_, ?_⟩ <;> simp [ValidMidi])).2 rfl rfl rfl rfl⟩

/-! ### Claim C2: downbeat iff position-within-measure is zero -/

/-- The latest time-signature change with `change.tick ≤ tick` (the spec's
"most recent time-signature boundary at or before the tick"). -/
def latestTsChangeLE (timeSigs : List TsEv) (tick : ℕ) : Option TsEv :=
  (timeSigs.filter (fun e => e.ticks ≤ tick)).getLast?

/-- The boundary tick per the spec's wording; 0 when no change lies at or
before `tick` (matching the loop's initialisation of `lastTsTick`). -/
def specTsBoundary (timeSigs : List TsEv) (tick : ℕ) : ℕ :=
  match latestTsChangeLE timeSigs tick with
  | some e => e.ticks
  | none => 0

/-- The numerator of the time signature active at `tick` per the spec's
wording: the latest change with `change.tick ≤ tick`; when no change lies at
or before `tick` the first entry is used (the code's fallback). -/
def specActiveNumerator (timeSigs : List TsEv) (tick : ℕ) : ℕ :=
  match latestTsChangeLE timeSigs tick with
  | some e => e.numerator
  | none => (timeSigs.headD ⟨0, 4, 4⟩).numerator

/-- Position within the measure per the spec: PPQ-steps since the boundary,
modulo the active numerator. -/
def specPosInMeasure (timeSigs : List TsEv) (ppq tick : ℕ) : ℕ :=
  ((tick - specTsBoundary timeSigs tick) / ppq) % specActiveNumerator timeSigs tick

/-- On sorted lists the `lastTsTick` scan computes the latest boundary at or
before `tick` (or the accumulator when none exists). -/
theorem lastTsTickGo_spec (tick : ℕ) :
    ∀ (l : List TsEv) (acc : ℕ),
      List.Pairwise (fun a b : TsEv => a.ticks ≤ b.ticks) l →
      lastTsTickGo tick l acc =
        match (l.filter (fun e => e.ticks ≤ tick)).getLast? with
        | some e => e.ticks
        | none => acc := by
  intro l
  induction l with
  | nil => intro acc _; rfl
  | cons e rest ih =>
      intro acc hsort
      by_cases h : e.ticks ≤ tick
      · have heq : lastTsTickGo tick (e :: rest) acc = lastTsTickGo tick rest e.ticks := by
          simp [lastTsTickGo, h]
        rw [heq, ih e.ticks (List.pairwise_cons.1 hsort).2]
        have hfe : (e :: rest).filter (fun x => decide (x.ticks ≤ tick)) =
            e :: rest.filter (fun x => decide (x.ticks ≤ tick)) := by
          simp [List.filter_cons, h]
        rw [hfe]
        cases hfr : rest.filter (fun x => decide (x.ticks ≤ tick)) with
        | nil => simp
        | cons f fs =>
            rcases Option.isSome_iff_exists.1 (List.getLast?_isSome.2
              (List.cons_ne_nil f fs)) with ⟨x, hx⟩
            rw [List.getLast?_cons_cons, hx]
      · have heq : lastTsTickGo tick (e :: rest) acc = acc := by
          simp [lastTsTickGo, h]
        rw [heq]
        have hnil : (e :: rest).filter (fun x => decide (x.ticks ≤ tick)) = [] := by
          rw [List.filter_eq_nil]
          intro a ha
          rcases List.mem_cons.1 ha with rfl | ha
          · simpa using h
          · have : e.ticks ≤ a.ticks := (List.pairwise_cons.1 hsort).1 a ha
            simp only [decide_eq_true_eq]
            omega
        rw [hnil]
        simp

/-- On sorted lists the `getTimeSigForTick` scan returns the latest change at
or before `tick`, falling back to the head. -/
theorem lastTsLE_spec (tick : ℕ) :
    ∀ (l : List TsEv) (last : TsEv),
      List.Pairwise (fun a b : TsEv => a.ticks ≤ b.ticks) l →
      lastTsLE tick last l =
        ((l.filter (fun e => e.ticks ≤ tick)).getLast?).getD last := by
  intro l
  induction l with
  | nil => intro last _; rfl
  | cons e rest ih =>
      intro last hsort
      by_cases h : e.ticks ≤ tick
      · have heq : lastTsLE tick last (e :: rest) = lastTsLE tick e rest := by
          simp [lastTsLE, h]
        rw [heq, ih e (List.pairwise_cons.1 hsort).2]
        have hfe : (e :: rest).filter (fun x => decide (x.ticks ≤ tick)) =
            e :: rest.filter (fun x => decide (x.ticks ≤ tick)) := by
          simp [List.filter_cons, h]
        rw [hfe]
        cases hfr : rest.filter (fun x => decide (x.ticks ≤ tick)) with
        | nil => simp
        | cons f fs =>
            rcases Option.isSome_iff_exists.1 (List.getLast?_isSome.2
              (List.cons_ne_nil f fs)) with ⟨x, hx⟩
            rw [List.getLast?_cons_cons, hx]
            rfl
      · have heq : lastTsLE tick last (e :: rest) = last := by
          simp [lastTsLE, h]
        rw [heq]
        have hnil : (e :: rest).filter (fun x => decide (x.ticks ≤ tick)) = [] := by
          rw [List.filter_eq_nil]
          intro a ha
          rcases List.mem_cons.1 ha with rfl | ha
          · simpa using h
          · have : e.ticks ≤ a.ticks := (List.pairwise_cons.1 hsort).1 a ha
            simp only [decide_eq_true_eq]
            omega
        rw [hnil]
        rfl

/-- Every beat emitted by the loop is the body applied at some index. -/
theorem beatLoop_mem_shape (P : ℕ) (M : ℤ) (te : List TempoEv) (ts : List TsEv) :
    ∀ (fuel i : ℕ) (prev : Option ℚ) (b : Beat),
      b ∈ beatLoop P M te ts fuel i prev → ∃ j ch, b = beatAt P te ts j ch := by
  intro fuel
  induction fuel with
  | zero => intro i prev b hb; simp [beatLoop] at hb
  | succ fuel ih =>
      intro i prev b hb
      rw [beatLoop] at hb
      by_cases hbr : ((i * P : ℕ) : ℤ) > M + P * (getTimeSigForTick ts (i * P)).numerator
      · rw [if_pos hbr] at hb
        simp at hb
      · rw [if_neg hbr] at hb
        rcases List.mem_cons.1 hb with rfl | hb
        · exact ⟨i, _, rfl⟩
        · exact ih _ _ b hb

theorem beatAt_downbeat_iff (P : ℕ) (te : List TempoEv) (ts : List TsEv)
    (j : ℕ) (ch : Bool) :
    (beatAt P te ts j ch).downbeat = 1 ↔
      ((j * P - lastTsTickAt ts (j * P)) / P) %
        (getTimeSigForTick ts (j * P)).numerator = 0 := by
  unfold beatAt
  dsimp only
  by_cases h : ((j * P - lastTsTickAt ts (j * P)) / P) %
      (getTimeSigForTick ts (j * P)).numerator + 1 = 1
  · rw [if_pos h]
    omega
  · rw [if_neg h]
    omega

/-- Claim C2: in every generated grid a beat's downbeat flag is 1 exactly
when its position within the measure — PPQ-steps since the latest
time-signature boundary at or before its tick, modulo the numerator of the
active time signature (head fallback when the first change is later than the
tick) — is 0. -/
theorem C2_downbeat_iff_position (m : MidiFile) (hv : ValidMidi m) :
    ∀ b ∈ generateBeatList m,
      (b.downbeat = 1 ↔
        specPosInMeasure (normTimeSigs m.header.timeSignatures)
          (resolvePpq m.header) b.tick = 0) := by
  intro b hb
  unfold generateBeatList at hb
  rcases beatLoop_mem_shape _ _ _ _ _ _ _ _ hb with ⟨j, ch, rfl⟩
  have hsort := normTimeSigs_sorted m.header.timeSignatures
  have htick : (beatAt (resolvePpq m.header) (normTempos m.header.tempos)
      (normTimeSigs m.header.timeSignatures) j ch).tick = j * resolvePpq m.header := rfl
  rw [htick]
  rw [beatAt_downbeat_iff]
  have hbound : lastTsTickAt (normTimeSigs m.header.timeSignatures) (j * resolvePpq m.header) =
      specTsBoundary (normTimeSigs m.header.timeSignatures) (j * resolvePpq m.header) := by
    unfold lastTsTickAt specTsBoundary latestTsChangeLE
    exact lastTsTickGo_spec _ _ 0 hsort
  have hnum : (getTimeSigForTick (normTimeSigs m.header.timeSignatures)
      (j * resolvePpq m.header)).numerator =
      specActiveNumerator (normTimeSigs m.header.timeSignatures) (j * resolvePpq m.header) := by
    unfold specActiveNumerator latestTsChangeLE
    cases hns : normTimeSigs m.header.timeSignatures with
    | nil => exact absurd hns (normTimeSigs_ne_nil _)
    | cons s rest =>
        rw [hns] at hsort
        unfold getTimeSigForTick
        dsimp only
        rw [lastTsLE_spec _ _ _ (List.pairwise_cons.1 hsort).2]
        have hfe : (s :: rest).filter (fun x => decide (x.ticks ≤ j * resolvePpq m.header)) =
            if s.ticks ≤ j * resolvePpq m.header then
              s :: rest.filter (fun x => decide (x.ticks ≤ j * resolvePpq m.header))
            else rest.filter (fun x => decide (x.ticks ≤ j * resolvePpq m.header)) := by
          by_cases hs : s.ticks ≤ j * resolvePpq m.header <;>
            simp [List.filter_cons, hs]
        by_cases hs : s.ticks ≤ j * resolvePpq m.header
        · rw [hfe, if_pos hs]
          cases hfr : rest.filter (fun x => decide (x.ticks ≤ j * resolvePpq m.header)) with
          | nil => simp
          | cons f fs =>
              rcases Option.isSome_iff_exists.1 (List.getLast?_isSome.2
                (List.cons_ne_nil f fs)) with ⟨x, hx⟩
              rw [List.getLast?_cons_cons, hx]
              rfl
        · have hnil : rest.filter (fun x => decide (x.ticks ≤ j * resolvePpq m.header)) = [] := by
            rw [List.filter_eq_nil]
            intro a ha
            have : s.ticks ≤ a.ticks := (List.pairwise_cons.1 hsort).1 a ha
            simp only [decide_eq_true_eq]
            omega
          rw [hfe, if_neg hs, hnil]
          simp
  unfold specPosInMeasure
  rw [hbound, hnum]

theorem C2_witness :
    (⟨0, 0, 1, 120⟩ : Beat).downbeat = 1 ↔
      specPosInMeasure (normTimeSigs []) (resolvePpq ⟨none, none, [], []⟩)
        (⟨0, 0, 1, 120⟩ : Beat).tick = 0 :=
  C2_downbeat_iff_position ⟨⟨none, none, [], []⟩, [], none⟩
    (by refine ⟨?_, ?_, ?_⟩ <;> simp [ValidMidi])
    ⟨0, 0, 1, 120⟩
    (by norm_num [generateBeatList, resolvePpq, jsOrNat, normTempos, normTimeSigs,
      List.insertionSort, List.orderedInsert, midiMaxTick, noteMaxTick, jceil,
      beatLoop, beatAt, tempoChangedFlag, getTempoAtTick, getTimeSigForTick,
      lastTempoLE, lastTsLE, lastTsTickGo, lastTsTickAt, ticksToSeconds,
      ticksToSecondsGo, secPerTick, headBpm, jround])

/-! ### Claim C3: loop bound, early stop, and the trailing pad -/

theorem jceil_eq_ceil (q : ℚ) : jceil q = ⌈q⌉ := by
  unfold jceil
  rw [Int.floor_neg]
  omega

theorem lastTsLE_mem (tick : ℕ) :
    ∀ (l : List TsEv) (last : TsEv), lastTsLE tick last l ∈ last :: l := by
  intro l
  induction l with
  | nil => intro last; simp [lastTsLE]
  | cons e rest ih =>
      intro last
      by_cases h : e.ticks ≤ tick
      · have heq : lastTsLE tick last (e :: rest) = lastTsLE tick e rest := by
          simp [lastTsLE, h]
        rw [heq]
        rcases List.mem_cons.1 (ih e) with h1 | h1
        · rw [h1]; exact List.mem_cons_of_mem _ (List.mem_cons_self _ _)
        · exact List.mem_cons_of_mem _ (List.mem_cons_of_mem _ h1)
      · have heq : lastTsLE tick last (e :: rest) = last := by
          simp [lastTsLE, h]
        rw [heq]
        exact List.mem_cons_self _ _

theorem getTimeSigForTick_mem (ts : List TsEv) (h : ts ≠ []) (tick : ℕ) :
    getTimeSigForTick ts tick ∈ ts := by
  cases ts with
  | nil => exact absurd rfl h
  | cons s rest => exact lastTsLE_mem tick rest s

/-- The tick projection of the loop output: PPQ multiples of the indices in
the longest prefix of the scan range on which the early-stop test fails. -/
theorem beatLoop_map_tick (P : ℕ) (M : ℤ) (te : List TempoEv) (ts : List TsEv) :
    ∀ (fuel i : ℕ) (prev : Option ℚ),
      (beatLoop P M te ts fuel i prev).map Beat.tick =
        ((List.range' i fuel).takeWhile (fun j =>
          decide (((j * P : ℕ) : ℤ) ≤ M + P * (getTimeSigForTick ts (j * P)).numerator))).map
          (fun j => j * P) := by
  intro fuel
  induction fuel with
  | zero => intro i prev; rfl
  | succ fuel ih =>
      intro i prev
      simp only [beatLoop]
      rw [List.range'_succ, List.takeWhile_cons]
      by_cases hbr : ((i * P : ℕ) : ℤ) > M + P * (getTimeSigForTick ts (i * P)).numerator
      · rw [if_pos hbr]
        have hdec : (decide (((i * P : ℕ) : ℤ) ≤
            M + P * (getTimeSigForTick ts (i * P)).numerator)) = false := by
          simp only [decide_eq_false_iff_not, not_le]
          exact hbr
        rw [hdec]
        simp
      · rw [if_neg hbr]
        have hdec : (decide (((i * P : ℕ) : ℤ) ≤
            M + P * (getTimeSigForTick ts (i * P)).numerator)) = true :=
          decide_eq_true (not_lt.1 hbr)
        rw [hdec]
        simp only [if_true, List.map_cons]
        rw [ih]
        rfl

theorem takeWhile_range'_lt (m : ℕ) :
    ∀ (n s : ℕ), (List.range' s n).takeWhile (fun j => decide (j < m)) =
      List.range' s (min n (m - s)) := by
  intro n
  induction n with
  | zero => intro s; simp
  | succ n ih =>
      intro s
      rw [List.range'_succ, List.takeWhile_cons]
      by_cases h : s < m
      · rw [decide_eq_true h]
        simp only [if_true]
        rw [ih (s + 1)]
        have h1 : min (n + 1) (m - s) = min n (m - (s + 1)) + 1 := by omega
        rw [h1, List.range'_succ]
      · have hd : decide (s < m) = false := by simp [h]
        rw [hd]
        have h1 : min (n + 1) (m - s) = 0 := by omega
        rw [h1]
        simp

theorem mem_takeWhile_range' (p : ℕ → Bool) :
    ∀ (n s j : ℕ), s ≤ j → j < s + n → (∀ k, s ≤ k → k ≤ j → p k = true) →
      j ∈ (List.range' s n).takeWhile p := by
  intro n
  induction n with
  | zero => intro s j h1 h2 _; omega
  | succ n ih =>
      intro s j h1 h2 h3
      rw [List.range'_succ, List.takeWhile_cons, h3 s (le_refl s) h1]
      simp only [if_true]
      rcases eq_or_lt_of_le h1 with rfl | hlt
      · exact List.mem_cons_self _ _
      · exact List.mem_cons_of_mem _
          (ih (s + 1) j hlt (by omega) (fun k hk1 hk2 => h3 k (by omega) hk2))

/-- Claim C3 (amended): for valid input, the scan covers at most
`ceil(maxTick/ppq) + 4` beat indices (so at most that many plus one beats);
every emitted beat satisfies the early-stop bound at its own tick; the grid
always contains at least one beat strictly beyond `maxTick`; and with a
constant time signature it contains at least `min numerator 4` beats strictly
beyond `maxTick` — the index cap of `+4` means a full trailing measure is
only guaranteed for numerators up to 4, not in general. -/
theorem C3_amended (m : MidiFile) (hv : ValidMidi m) :
    (generateBeatList m).length ≤
      (jceil ((midiMaxTick m (normTempos m.header.tempos) (resolvePpq m.header) : ℚ) /
        (resolvePpq m.header : ℚ)) + 4 + 1).toNat ∧
    (∀ b ∈ generateBeatList m,
      (b.tick : ℤ) ≤ midiMaxTick m (normTempos m.header.tempos) (resolvePpq m.header) +
        (resolvePpq m.header : ℤ) *
          ((getTimeSigForTick (normTimeSigs m.header.timeSignatures) b.tick).numerator : ℤ)) ∧
    (∃ b ∈ generateBeatList m,
      midiMaxTick m (normTempos m.header.tempos) (resolvePpq m.header) < (b.tick : ℤ)) ∧
    (∀ s : TsEv, normTimeSigs m.header.timeSignatures = [s] →
      min s.numerator 4 ≤
        ((generateBeatList m).filter (fun b =>
          decide (midiMaxTick m (normTempos m.header.tempos) (resolvePpq m.header)
            < (b.tick : ℤ)))).length) := by
  have hP : 0 < resolvePpq m.header := resolvePpq_pos m.header
  set P := resolvePpq m.header with hPdef
  set te := normTempos m.header.tempos with htedef
  set ts := normTimeSigs m.header.timeSignatures with htsdef
  set M := midiMaxTick m te P with hMdef
  have hM0 : 0 ≤ M := midiMaxTick_nonneg m hv P
  set N := (jceil ((M : ℚ) / (P : ℚ)) + 4 + 1).toNat with hNdef
  have hgen : generateBeatList m = beatLoop P M te ts N 0 none := rfl
  have hmap : (generateBeatList m).map Beat.tick =
      ((List.range' 0 N).takeWhile (fun j =>
        decide (((j * P : ℕ) : ℤ) ≤ M + P * (getTimeSigForTick ts (j * P)).numerator))).map
        (fun j => j * P) := by
    rw [hgen]
    exact beatLoop_map_tick P M te ts N 0 none
  set f0 := M.toNat / P with hf0def
  have hMt : ((M.toNat : ℕ) : ℤ) = M := Int.toNat_of_nonneg hM0
  have hf0K : (f0 : ℤ) ≤ jceil ((M : ℚ) / (P : ℚ)) := by
    rw [jceil_eq_ceil]
    have h1 : (f0 : ℚ) ≤ (M : ℚ) / (P : ℚ) := by
      rw [le_div_iff (by positivity)]
      have h2 : (f0 * P : ℕ) ≤ M.toNat := Nat.div_mul_le_self _ _
      have h3 : ((f0 * P : ℕ) : ℚ) ≤ ((M.toNat : ℕ) : ℚ) := by exact_mod_cast h2
      have h4 : ((M.toNat : ℕ) : ℚ) = (M : ℚ) := by exact_mod_cast congrArg (fun z : ℤ => (z : ℚ)) hMt
      push_cast at h3
      rw [h4] at h3
      exact h3
    have h2 := Int.le_ceil ((M : ℚ) / (P : ℚ))
    have h3 : (f0 : ℚ) ≤ (⌈(M : ℚ) / (P : ℚ)⌉ : ℚ) := le_trans h1 h2
    exact_mod_cast h3
  have hK0 : 0 ≤ jceil ((M : ℚ) / (P : ℚ)) := le_trans (by positivity) hf0K
  have hN5 : N = (jceil ((M : ℚ) / (P : ℚ))).toNat + 5 := by omega
  have hNf0 : f0 + 5 ≤ N := by omega
  have hts_ne : ts ≠ [] := normTimeSigs_ne_nil _
  have hnum1 : ∀ t : ℕ, 1 ≤ (getTimeSigForTick ts t).numerator := fun t =>
    normTimeSigs_numerator_pos _ hv.2.1 _ (getTimeSigForTick_mem ts hts_ne t)
  have hf0P : f0 * P ≤ M.toNat := Nat.div_mul_le_self _ _
  have hMlt : M.toNat < (f0 + 1) * P := (Nat.div_lt_iff_lt_mul hP).1 (Nat.lt_succ_self f0)
  have hcond : ∀ k, k ≤ f0 + 1 →
      (decide (((k * P : ℕ) : ℤ) ≤ M + P * (getTimeSigForTick ts (k * P)).numerator)) = true := by
    intro k hk
    rw [decide_eq_true_eq]
    have h1 : k * P ≤ (f0 + 1) * P := Nat.mul_le_mul_right P hk
    have h2 : (f0 + 1) * P = f0 * P + P := by ring
    have h3 : k * P ≤ M.toNat + P := by omega
    have hnk : 1 ≤ (getTimeSigForTick ts (k * P)).numerator := hnum1 _
    have hPn : (P : ℤ) ≤ (P : ℤ) * ((getTimeSigForTick ts (k * P)).numerator : ℤ) := by
      have : (1 : ℤ) ≤ ((getTimeSigForTick ts (k * P)).numerator : ℤ) := by exact_mod_cast hnk
      nlinarith [Int.natCast_nonneg P]
    calc ((k * P : ℕ) : ℤ) ≤ ((M.toNat + P : ℕ) : ℤ) := by exact_mod_cast h3
      _ = M + P := by push_cast [hMt]; omega
      _ ≤ M + (P : ℤ) * ((getTimeSigForTick ts (k * P)).numerator : ℤ) := by linarith
  refine ⟨?_, ?_, ?_, ?_⟩
  · have h1 := congrArg List.length hmap
    rw [List.length_map, List.length_map] at h1
    rw [h1]
    calc (List.takeWhile _ (List.range' 0 N)).length
        ≤ (List.range' 0 N).length := (List.takeWhile_sublist _).length_le
      _ = N := by simp
  · intro b hb
    have h1 : b.tick ∈ (generateBeatList m).map Beat.tick := List.mem_map_of_mem _ hb
    rw [hmap] at h1
    rcases List.mem_map.1 h1 with ⟨j, hj, hjt⟩
    have h2 := List.mem_takeWhile_imp hj
    rw [decide_eq_true_eq] at h2
    rw [← hjt]
    exact h2
  · have hmem := mem_takeWhile_range'
      (fun j => decide (((j * P : ℕ) : ℤ) ≤ M + P * (getTimeSigForTick ts (j * P)).numerator))
      N 0 (f0 + 1) (Nat.zero_le _) (by omega) (fun k _ hk2 => hcond k hk2)
    have htickmem : (f0 + 1) * P ∈ (generateBeatList m).map Beat.tick := by
      rw [hmap]
      exact List.mem_map_of_mem _ hmem
    rcases List.mem_map.1 htickmem with ⟨b, hbmem, hbt⟩
    refine ⟨b, hbmem, ?_⟩
    rw [hbt]
    calc M = ((M.toNat : ℕ) : ℤ) := hMt.symm
      _ < (((f0 + 1) * P : ℕ) : ℤ) := by exact_mod_cast hMlt
  · intro s hs
    have hsnum : 1 ≤ s.numerator := by
      have : s ∈ ts := by rw [hs]; exact List.mem_cons_self _ _
      exact normTimeSigs_numerator_pos _ hv.2.1 _ this
    have hgsig : ∀ t : ℕ, getTimeSigForTick ts t = s := by
      intro t
      rw [hs]
      rfl
    have hL : (generateBeatList m).map Beat.tick =
        (List.range' 0 (min N (f0 + s.numerator + 1))).map (fun j => j * P) := by
      rw [hmap]
      have hp : (fun j => decide (((j * P : ℕ) : ℤ) ≤
          M + P * (getTimeSigForTick ts (j * P)).numerator)) =
          (fun j => decide (j < f0 + s.numerator + 1)) := by
        funext j
        rw [hgsig (j * P)]
        apply decide_eq_decide.2
        constructor
        · intro h
          have h1 : j * P ≤ M.toNat + P * s.numerator := by
            have h2 : ((j * P : ℕ) : ℤ) ≤ ((M.toNat + P * s.numerator : ℕ) : ℤ) := by
              push_cast [hMt]
              push_cast at h
              linarith
            exact_mod_cast h2
          have h2 : j ≤ (M.toNat + P * s.numerator) / P := (Nat.le_div_iff_mul_le hP).2 h1
          rw [Nat.add_mul_div_left _ _ hP] at h2
          omega
        · intro h
          have h1 : j ≤ f0 + s.numerator := by omega
          have h2 : j * P ≤ M.toNat + P * s.numerator := by
            have h3 : j ≤ (M.toNat + P * s.numerator) / P := by
              rw [Nat.add_mul_div_left _ _ hP]
              omega
            exact (Nat.le_div_iff_mul_le hP).1 h3
          have h4 : ((j * P : ℕ) : ℤ) ≤ ((M.toNat + P * s.numerator : ℕ) : ℤ) := by
            exact_mod_cast h2
          push_cast [hMt] at h4
          push_cast
          linarith
      rw [hp, takeWhile_range'_lt]
      norm_num
    have hfc : ((generateBeatList m).filter (fun b => decide (M < (b.tick : ℤ)))).length =
        List.countP (fun j : ℕ => decide (M < ((j * P : ℕ) : ℤ)))
          (List.range' 0 (min N (f0 + s.numerator + 1))) := by
      rw [← List.countP_eq_length_filter]
      have h1 : List.countP (fun b => decide (M < (b.tick : ℤ))) (generateBeatList m) =
          List.countP (fun t : ℕ => decide (M < (t : ℤ)))
            ((generateBeatList m).map Beat.tick) := by
        rw [List.countP_map]
        rfl
      rw [h1, hL, List.countP_map]
      rfl
    rw [hfc]
    have hsplit : List.range' 0 (min N (f0 + s.numerator + 1)) =
        List.range' 0 (f0 + 1) ++
          List.range' (f0 + 1) (min N (f0 + s.numerator + 1) - (f0 + 1)) := by
      have h1 := List.range'_append 0 (f0 + 1)
        (min N (f0 + s.numerator + 1) - (f0 + 1)) 1
      have h2 : 0 + 1 * (f0 + 1) = f0 + 1 := by omega
      have h3 : min N (f0 + s.numerator + 1) - (f0 + 1) + (f0 + 1) =
          min N (f0 + s.numerator + 1) := by omega
      rw [h2, h3] at h1
      exact h1.symm
    rw [hsplit, List.countP_append]
    have hc1 : List.countP (fun j : ℕ => decide (M < ((j * P : ℕ) : ℤ)))
        (List.range' 0 (f0 + 1)) = 0 := by
      rw [List.countP_eq_zero]
      intro a ha
      rw [List.mem_range'_1] at ha
      simp only [decide_eq_true_eq, not_lt]
      have h1 : a * P ≤ f0 * P := Nat.mul_le_mul_right P (by omega)
      have h2 : a * P ≤ M.toNat := le_trans h1 hf0P
      calc ((a * P : ℕ) : ℤ) ≤ ((M.toNat : ℕ) : ℤ) := by exact_mod_cast h2
        _ = M := hMt
    have hc2 : List.countP (fun j : ℕ => decide (M < ((j * P : ℕ) : ℤ)))
        (List.range' (f0 + 1) (min N (f0 + s.numerator + 1) - (f0 + 1))) =
        min N (f0 + s.numerator + 1) - (f0 + 1) := by
      have h1 := List.countP_eq_length (l := List.range' (f0 + 1)
        (min N (f0 + s.numerator + 1) - (f0 + 1)))
        (p := fun j : ℕ => decide (M < ((j * P : ℕ) : ℤ)))
      rw [List.length_range'] at h1
      apply h1.2
      intro a ha
      rw [List.mem_range'_1] at ha
      simp only [decide_eq_true_eq]
      have h2 : M.toNat < a * P := by
        have h3 : (f0 + 1) * P ≤ a * P := Nat.mul_le_mul_right P ha.1
        omega
      calc M = ((M.toNat : ℕ) : ℤ) := hMt.symm
        _ < ((a * P : ℕ) : ℤ) := by exact_mod_cast h2
    rw [hc1, hc2]
    omega

theorem C3_amended_witness :
    (generateBeatList ⟨⟨some 480, none, [], []⟩, [], none⟩).length ≤
      (jceil ((midiMaxTick ⟨⟨some 480, none, [], []⟩, [], none⟩
          (normTempos []) (resolvePpq ⟨some 480, none, [], []⟩) : ℚ) /
        (resolvePpq ⟨some 480, none, [], []⟩ : ℚ)) + 4 + 1).toNat ∧
    min (4 : ℕ) 4 ≤
      ((generateBeatList ⟨⟨some 480, none, [], []⟩, [], none⟩).filter (fun b =>
        decide (midiMaxTick ⟨⟨some 480, none, [], []⟩, [], none⟩
          (normTempos []) (resolvePpq ⟨some 480, none, [], []⟩) < (b.tick : ℤ)))).length :=
  ⟨(C3_amended ⟨⟨some 480, none, [], []⟩, [], none⟩
      (by refine ⟨?_, ?_, ?_⟩ <;> simp [ValidMidi])).1,
    (C3_amended ⟨⟨some 480, none, [], []⟩, [], none⟩
      (by refine ⟨?_, ?_, ?_⟩ <;> simp [ValidMidi])).2.2.2 ⟨0, 4, 4⟩ rfl⟩

/-- Counterexample to claim C3: with a 5/8 time signature at tick 0, a single
note at tick 480 and PPQ 480 (a valid input, `maxTick = 480`, active
numerator 5 throughout), the grid contains only 4 beats strictly beyond
`maxTick` — fewer than the numerator-many beats (one full measure) that the
claim asserts. -/
theorem C3_counterexample :
    ValidMidi ⟨⟨some 480, none, [], [⟨0, (5, 8)⟩]⟩, [⟨[⟨480⟩]⟩], none⟩ ∧
    midiMaxTick ⟨⟨some 480, none, [], [⟨0, (5, 8)⟩]⟩, [⟨[⟨480⟩]⟩], none⟩
        (normTempos []) (resolvePpq ⟨some 480, none, [], [⟨0, (5, 8)⟩]⟩) = 480 ∧
    (getTimeSigForTick (normTimeSigs [⟨0, (5, 8)⟩]) 2400).numerator = 5 ∧
    ((generateBeatList ⟨⟨some 480, none, [], [⟨0, (5, 8)⟩]⟩, [⟨[⟨480⟩]⟩], none⟩).filter
      (fun b => decide ((480 : ℤ) < (b.tick : ℤ)))).length = 4 ∧
    (4 : ℕ) < 5 := by
  refine ⟨by refine ⟨?_, ?_, ?_⟩ <;> simp [ValidMidi], rfl, rfl, ?_, by decide⟩
  norm_num [generateBeatList, resolvePpq, jsOrNat, normTempos, normTimeSigs,
    List.insertionSort, List.orderedInsert, midiMaxTick, noteMaxTick, jceil,
    beatLoop, beatAt, tempoChangedFlag, getTempoAtTick, getTimeSigForTick,
    lastTempoLE, lastTsLE, lastTsTickGo, lastTsTickAt, ticksToSeconds,
    ticksToSecondsGo, secPerTick, headBpm, jround, List.filter]

/-! ### Claim C9: the base64 chunk packaging

Strings are modelled as lists of UTF-16 code units, which is what JS
strings are and what `String.prototype.length` and `slice` count, so a
chunk boundary can fall inside a surrogate pair exactly as in the program.
`TextEncoder` is modelled in two stages: conversion of the code-unit
sequence to unicode scalar values (surrogate pairs combine; a lone
surrogate becomes U+FFFD, per WHATWG Encoding), then UTF-8 byte encoding
of the scalars.  13 is CR, 10 is LF. -/

/-- A low (trailing) surrogate code unit. -/
def lowSurr (u : ℕ) : Bool := decide (56320 ≤ u ∧ u < 57344)

/-- Well-formed UTF-16: every unit is a BMP non-surrogate code unit or part
of a high-low surrogate pair (a JS string with no lone surrogates). -/
def wfUtf16 : List ℕ → Bool
  | [] => true
  | [u] => decide (u < 55296 ∨ (57344 ≤ u ∧ u < 65536))
  | u :: v :: rest =>
      if u < 55296 ∨ (57344 ≤ u ∧ u < 65536) then wfUtf16 (v :: rest)
      else if 55296 ≤ u ∧ u < 56320 ∧ 56320 ≤ v ∧ v < 57344 then wfUtf16 rest
      else false

/-- WHATWG conversion of a UTF-16 code-unit sequence to unicode scalar
values, as `TextEncoder` reads a JS string: a high-low surrogate pair
combines into one astral scalar, and a lone surrogate becomes U+FFFD
(65533). -/
def utf16ToScalars : List ℕ → List ℕ
  | [] => []
  | [u] => if 55296 ≤ u ∧ u < 57344 then [65533] else [u]
  | u :: v :: rest =>
      if u < 55296 ∨ 57344 ≤ u then u :: utf16ToScalars (v :: rest)
      else if u < 56320 then
        if 56320 ≤ v ∧ v < 57344 then
          (65536 + (u - 55296) * 1024 + (v - 56320)) :: utf16ToScalars rest
        else 65533 :: utf16ToScalars (v :: rest)
      else 65533 :: utf16ToScalars (v :: rest)

/-- The UTF-16 code units storing a scalar sequence as a JS string (how a
decoded block reads back): an astral scalar becomes a surrogate pair. -/
def scalarsToUtf16 : List ℕ → List ℕ
  | [] => []
  | c :: rest =>
      if c < 65536 then c :: scalarsToUtf16 rest
      else (55296 + (c - 65536) / 1024) :: (56320 + (c - 65536) % 1024) ::
        scalarsToUtf16 rest

/-- JS `str.replace(/\r?\n/g, "\r\n")` (CR and LF are code units; surrogate
code units are never 13 or 10, so the replacement acts unit-wise). -/
def normalizeCrlf : List ℕ → List ℕ
  | [] => []
  | [c] => if c = 10 then [13, 10] else [c]
  | c :: d :: rest =>
      if c = 13 ∧ d = 10 then 13 :: 10 :: normalizeCrlf rest
      else if c = 10 then 13 :: 10 :: normalizeCrlf (d :: rest)
      else c :: normalizeCrlf (d :: rest)

/-- The UTF-8 bytes of one scalar value (what `TextEncoder` emits). -/
def utf8EncodeChar (c : ℕ) : List ℕ :=
  if c < 128 then [c]
  else if c < 2048 then [192 + c / 64, 128 + c % 64]
  else if c < 65536 then [224 + c / 4096, 128 + c / 64 % 64, 128 + c % 64]
  else [240 + c / 262144, 128 + c / 4096 % 64, 128 + c / 64 % 64, 128 + c % 64]

/-- The encoder `new TextEncoder().encode(str)`. -/
def utf8Encode (s : List ℕ) : List ℕ :=
  (s.map utf8EncodeChar).flatten

/-- Standard UTF-8 decoding (the reference inverse used to read the blocks
back; the `headD` defaults are only reached on malformed input). -/
def utf8Decode : List ℕ → List ℕ
  | [] => []
  | b0 :: rest =>
      if b0 < 128 then b0 :: utf8Decode rest
      else if b0 < 224 then
        ((b0 - 192) * 64 + (rest.headD 0 - 128)) :: utf8Decode (rest.drop 1)
      else if b0 < 240 then
        ((b0 - 224) * 4096 + (rest.headD 0 - 128) * 64 + ((rest.drop 1).headD 0 - 128)) ::
          utf8Decode (rest.drop 2)
      else
        ((b0 - 240) * 262144 + (rest.headD 0 - 128) * 4096 +
            ((rest.drop 1).headD 0 - 128) * 64 + ((rest.drop 2).headD 0 - 128)) ::
          utf8Decode (rest.drop 3)
termination_by l => l.length
decreasing_by
  all_goals simp only [List.length_cons, List.length_drop]
  all_goals omega

/-- The base64 alphabet, as indexed by `btoa`. -/
def b64Alphabet : List Char :=
  ['A', 'B', 'C', 'D', 'E', 'F', 'G', 'H', 'I', 'J', 'K', 'L', 'M',
   'N', 'O', 'P', 'Q', 'R', 'S', 'T', 'U', 'V', 'W', 'X', 'Y', 'Z',
   'a', 'b', 'c', 'd', 'e', 'f', 'g', 'h', 'i', 'j', 'k', 'l', 'm',
   'n', 'o', 'p', 'q', 'r', 's', 't', 'u', 'v', 'w', 'x', 'y', 'z',
   '0', '1', '2', '3', '4', '5', '6', '7', '8', '9', '+', '/']

def sixtetChar (n : ℕ) : Char := b64Alphabet.getD n 'A'

def charSixtet (c : Char) : ℕ := b64Alphabet.indexOf c

/-- JS `btoa` on a byte list. -/
def base64Encode : List ℕ → List Char
  | [] => []
  | [b0] => [sixtetChar (b0 / 4), sixtetChar (b0 % 4 * 16), '=', '=']
  | [b0, b1] =>
      [sixtetChar (b0 / 4), sixtetChar (b0 % 4 * 16 + b1 / 16), sixtetChar (b1 % 16 * 4), '=']
  | b0 :: b1 :: b2 :: rest =>
      sixtetChar (b0 / 4) :: sixtetChar (b0 % 4 * 16 + b1 / 16) ::
        sixtetChar (b1 % 16 * 4 + b2 / 64) :: sixtetChar (b2 % 64) :: base64Encode rest

/-- Standard base64 decoding (the reference inverse of `btoa`). -/
def base64Decode : List Char → List ℕ
  | c0 :: c1 :: c2 :: c3 :: rest =>
      if c2 = '=' then [charSixtet c0 * 4 + charSixtet c1 / 16]
      else if c3 = '=' then
        [charSixtet c0 * 4 + charSixtet c1 / 16,
         charSixtet c1 % 16 * 16 + charSixtet c2 / 4]
      else
        (charSixtet c0 * 4 + charSixtet c1 / 16) ::
          (charSixtet c1 % 16 * 16 + charSixtet c2 / 4) ::
          (charSixtet c2 % 4 * 64 + charSixtet c3) :: base64Decode rest
  | _ => []

/-- The function `base64EncodeUnicode` (script.js lines 218-229): normalize line endings,
`TextEncoder().encode` (UTF-16 to scalars with U+FFFD for lone surrogates,
then UTF-8 bytes), `btoa`. -/
def base64EncodeUnicode (str : List ℕ) : List Char :=
  base64Encode (utf8Encode (utf16ToScalars (normalizeCrlf str)))

/-- Fixed-size chunking (`for (i = 0; i < len; i += chunkSize) slice(i, i +
chunkSize)`); the list elements are UTF-16 code units, which is what JS
`slice` indexes, so a cut can split a surrogate pair.  For `chunkSize = 0`
JS would loop forever; here the result is `[]` (the source only ever passes
1024). -/
def chunkList {α : Type} (k : ℕ) (l : List α) : List (List α) :=
  if _h : l.length = 0 ∨ k = 0 then []
  else l.take k :: chunkList k (l.drop k)
termination_by l.length
decreasing_by
  simp only [List.length_drop]
  omega

/-- The function `splitLuaIntoBase64Blocks` (script.js lines 231-242): normalize the whole
string, cut into `chunkSize`-code-unit chunks, and base64-encode each chunk
(each encode re-normalizing line endings). -/
def splitLuaIntoBase64Blocks (luaString : List ℕ) (chunkSize : ℕ) : List (List Char) :=
  (chunkList chunkSize (normalizeCrlf luaString)).map base64EncodeUnicode

/-- Base64-decode each block, UTF-8 decode, and concatenate in order. -/
def decodeBlocks (blocks : List (List Char)) : List ℕ :=
  (blocks.map (fun b => utf8Decode (base64Decode b))).flatten

theorem sixtet_roundtrip : ∀ n : ℕ, n < 64 → charSixtet (sixtetChar n) = n := by
  decide

theorem sixtetChar_ne_eq : ∀ n : ℕ, n < 64 → sixtetChar n ≠ '=' := by
  decide

theorem base64_roundtrip :
    ∀ bs : List ℕ, (∀ b ∈ bs, b < 256) → base64Decode (base64Encode bs) = bs
  | [], _ => rfl
  | [b0], h => by
      have hb0 : b0 < 256 := h b0 (List.mem_cons_self _ _)
      have h1 : b0 / 4 < 64 := by omega
      have h2 : b0 % 4 * 16 < 64 := by omega
      simp only [base64Encode, base64Decode, if_true]
      rw [sixtet_roundtrip _ h1, sixtet_roundtrip _ h2]
      have e1 : b0 % 4 * 16 / 16 = b0 % 4 := by omega
      rw [e1]
      have e0 : b0 / 4 * 4 + b0 % 4 = b0 := by omega
      rw [e0]
  | [b0, b1], h => by
      have hb0 : b0 < 256 := h b0 (List.mem_cons_self _ _)
      have hb1 : b1 < 256 := h b1 (List.mem_cons_of_mem _ (List.mem_cons_self _ _))
      have h1 : b0 / 4 < 64 := by omega
      have h2 : b0 % 4 * 16 + b1 / 16 < 64 := by omega
      have h3 : b1 % 16 * 4 < 64 := by omega
      simp only [base64Encode, base64Decode]
      rw [if_neg (sixtetChar_ne_eq _ h3)]
      simp only [if_true]
      rw [sixtet_roundtrip _ h1, sixtet_roundtrip _ h2, sixtet_roundtrip _ h3]
      have e0 : b0 / 4 * 4 + (b0 % 4 * 16 + b1 / 16) / 16 = b0 := by omega
      have e1 : (b0 % 4 * 16 + b1 / 16) % 16 * 16 + b1 % 16 * 4 / 4 = b1 := by omega
      rw [e0, e1]
  | b0 :: b1 :: b2 :: rest, h => by
      have hb0 : b0 < 256 := h b0 (List.mem_cons_self _ _)
      have hb1 : b1 < 256 := h b1 (List.mem_cons_of_mem _ (List.mem_cons_self _ _))
      have hb2 : b2 < 256 := h b2
        (List.mem_cons_of_mem _ (List.mem_cons_of_mem _ (List.mem_cons_self _ _)))
      have h1 : b0 / 4 < 64 := by omega
      have h2 : b0 % 4 * 16 + b1 / 16 < 64 := by omega
      have h3 : b1 % 16 * 4 + b2 / 64 < 64 := by omega
      have h4 : b2 % 64 < 64 := by omega
      have hrest : ∀ b ∈ rest, b < 256 := fun b hb =>
        h b (List.mem_cons_of_mem _ (List.mem_cons_of_mem _ (List.mem_cons_of_mem _ hb)))
      simp only [base64Encode, base64Decode]
      rw [if_neg (sixtetChar_ne_eq _ h3), if_neg (sixtetChar_ne_eq _ h4)]
      rw [sixtet_roundtrip _ h1, sixtet_roundtrip _ h2, sixtet_roundtrip _ h3,
        sixtet_roundtrip _ h4]
      rw [base64_roundtrip rest hrest]
      have e0 : b0 / 4 * 4 + (b0 % 4 * 16 + b1 / 16) / 16 = b0 := by omega
      have e1 : (b0 % 4 * 16 + b1 / 16) % 16 * 16 + (b1 % 16 * 4 + b2 / 64) / 4 = b1 := by
        omega
      have e2 : (b1 % 16 * 4 + b2 / 64) % 4 * 64 + b2 % 64 = b2 := by omega
      rw [e0, e1, e2]

theorem utf8EncodeChar_lt_256 (c : ℕ) (hc : c < 1114112) :
    ∀ b ∈ utf8EncodeChar c, b < 256 := by
  unfold utf8EncodeChar
  split_ifs with h1 h2 h3 <;> intro b hb <;> simp at hb <;> omega

theorem utf8Encode_lt_256 (s : List ℕ) (h : ∀ c ∈ s, c < 1114112) :
    ∀ b ∈ utf8Encode s, b < 256 := by
  intro b hb
  unfold utf8Encode at hb
  rw [List.mem_flatten] at hb
  rcases hb with ⟨bytes, hbytes, hb⟩
  rcases List.mem_map.1 hbytes with ⟨c, hc, rfl⟩
  exact utf8EncodeChar_lt_256 c (h c hc) b hb

theorem utf8Decode_encode_cons (c : ℕ) (hc : c < 1114112) (tail : List ℕ) :
    utf8Decode (utf8EncodeChar c ++ tail) = c :: utf8Decode tail := by
  unfold utf8EncodeChar
  split_ifs with h1 h2 h3
  · simp only [List.cons_append, List.nil_append]
    rw [utf8Decode]
    rw [if_pos h1]
  · simp only [List.cons_append, List.nil_append]
    rw [utf8Decode]
    rw [if_neg (by omega), if_pos (by omega : 192 + c / 64 < 224)]
    have hh : ((128 + c % 64) :: tail).headD 0 = 128 + c % 64 := rfl
    have hd : ((128 + c % 64) :: tail).drop 1 = tail := rfl
    rw [hh, hd]
    have e : (192 + c / 64 - 192) * 64 + (128 + c % 64 - 128) = c := by omega
    rw [e]
  · simp only [List.cons_append, List.nil_append]
    rw [utf8Decode]
    rw [if_neg (by omega), if_neg (by omega), if_pos (by omega : 224 + c / 4096 < 240)]
    have hh1 : ((128 + c / 64 % 64) :: (128 + c % 64) :: tail).headD 0
        = 128 + c / 64 % 64 := rfl
    have hd1 : (((128 + c / 64 % 64) :: (128 + c % 64) :: tail).drop 1).headD 0
        = 128 + c % 64 := rfl
    have hd2 : ((128 + c / 64 % 64) :: (128 + c % 64) :: tail).drop 2 = tail := rfl
    rw [hh1, hd1, hd2]
    have e : (224 + c / 4096 - 224) * 4096 + (128 + c / 64 % 64 - 128) * 64 +
        (128 + c % 64 - 128) = c := by omega
    rw [e]
  · simp only [List.cons_append, List.nil_append]
    rw [utf8Decode]
    rw [if_neg (by omega), if_neg (by omega), if_neg (by omega)]
    have hh1 : ((128 + c / 4096 % 64) :: (128 + c / 64 % 64) :: (128 + c % 64) ::
        tail).headD 0 = 128 + c / 4096 % 64 := rfl
    have hd1 : (((128 + c / 4096 % 64) :: (128 + c / 64 % 64) :: (128 + c % 64) ::
        tail).drop 1).headD 0 = 128 + c / 64 % 64 := rfl
    have hd2 : (((128 + c / 4096 % 64) :: (128 + c / 64 % 64) :: (128 + c % 64) ::
        tail).drop 2).headD 0 = 128 + c % 64 := rfl
    have hd3 : ((128 + c / 4096 % 64) :: (128 + c / 64 % 64) :: (128 + c % 64) ::
        tail).drop 3 = tail := rfl
    rw [hh1, hd1, hd2, hd3]
    have e : (240 + c / 262144 - 240) * 262144 + (128 + c / 4096 % 64 - 128) * 4096 +
        (128 + c / 64 % 64 - 128) * 64 + (128 + c % 64 - 128) = c := by omega
    rw [e]

theorem utf8_roundtrip (s : List ℕ) (h : ∀ c ∈ s, c < 1114112) :
    utf8Decode (utf8Encode s) = s := by
  induction s with
  | nil =>
      show utf8Decode (utf8Encode []) = []
      have h0 : utf8Encode [] = [] := rfl
      rw [h0, utf8Decode]
  | cons c rest ih =>
      have hc := h c (List.mem_cons_self _ _)
      have h2 : utf8Encode (c :: rest) = utf8EncodeChar c ++ utf8Encode rest := by
        simp [utf8Encode]
      rw [h2, utf8Decode_encode_cons c hc,
        ih (fun x hx => h x (List.mem_cons_of_mem _ hx))]

/-- Bare-LF check: true when no LF appears without an immediately preceding
CR (and the list does not begin with LF). -/
def crlfOk : List ℕ → Bool
  | [] => true
  | [c] => decide (c ≠ 10)
  | c :: d :: rest =>
      if c = 10 then false
      else if c = 13 ∧ d = 10 then crlfOk rest
      else crlfOk (d :: rest)

theorem normalizeCrlf_head_ne (s : List ℕ) : (normalizeCrlf s).head? ≠ some 10 := by
  match s with
  | [] => simp [normalizeCrlf]
  | [c] =>
      by_cases h : c = 10
      · simp [normalizeCrlf, h]
      · simp [normalizeCrlf, h]
  | c :: d :: rest =>
      by_cases h1 : c = 13 ∧ d = 10
      · simp [normalizeCrlf, h1]
      · by_cases h2 : c = 10
        · simp [normalizeCrlf, h1, h2]
        · simp only [normalizeCrlf, if_neg h1, if_neg h2, List.head?_cons]
          simp [h2]

theorem crlfOk_cons (c : ℕ) (X : List ℕ) (hc : c ≠ 10) (hX : crlfOk X = true)
    (hhead : X.head? ≠ some 10) : crlfOk (c :: X) = true := by
  cases X with
  | nil => simp [crlfOk, hc]
  | cons x xs =>
      have hx : x ≠ 10 := by simpa using hhead
      simp only [crlfOk]
      rw [if_neg hc, if_neg (by rintro ⟨h13, h10⟩; exact hx h10)]
      simpa using hX

theorem crlfOk_normalizeCrlf : ∀ s : List ℕ, crlfOk (normalizeCrlf s) = true
  | [] => rfl
  | [c] => by
      by_cases h : c = 10
      · rw [show normalizeCrlf [c] = [13, 10] by simp [normalizeCrlf, h]]
        decide
      · rw [show normalizeCrlf [c] = [c] by simp [normalizeCrlf, h]]
        simp [crlfOk, h]
  | c :: d :: rest => by
      by_cases h1 : c = 13 ∧ d = 10
      · have hrec := crlfOk_normalizeCrlf rest
        simp only [normalizeCrlf, if_pos h1, crlfOk]
        simpa using hrec
      · by_cases h2 : c = 10
        · have hrec := crlfOk_normalizeCrlf (d :: rest)
          simp only [normalizeCrlf, if_neg h1, if_pos h2, crlfOk]
          simpa using hrec
        · have hrec := crlfOk_normalizeCrlf (d :: rest)
          simp only [normalizeCrlf, if_neg h1, if_neg h2]
          exact crlfOk_cons c _ h2 hrec (normalizeCrlf_head_ne _)

theorem crlfOk_lf_head (xs : List ℕ) : crlfOk (10 :: xs) = false := by
  cases xs with
  | nil => simp [crlfOk]
  | cons x xs2 => simp [crlfOk]

/-- Cutting a CRLF-clean list is safe as long as the cut does not land
immediately before an LF: both pieces stay CRLF-clean. -/
theorem crlfOk_take_drop_aux :
    ∀ (n : ℕ) (l : List ℕ) (k : ℕ), l.length ≤ n → crlfOk l = true →
      (l.drop k).head? ≠ some 10 →
      crlfOk (l.take k) = true ∧ crlfOk (l.drop k) = true := by
  intro n
  induction n with
  | zero =>
      intro l k hl hok hh
      have h0 : l = [] := List.length_eq_zero.1 (Nat.le_zero.1 hl)
      subst h0
      simp [crlfOk]
  | succ n ih =>
      intro l k hl hok hh
      cases l with
      | nil => simp [crlfOk]
      | cons c rest0 =>
          cases k with
          | zero =>
              simp only [List.take_zero, List.drop_zero]
              exact ⟨rfl, hok⟩
          | succ k =>
              cases rest0 with
              | nil =>
                  constructor
                  · simpa using hok
                  · simp [crlfOk]
              | cons d rest =>
                  simp only [crlfOk] at hok
                  by_cases hc : c = 10
                  · rw [if_pos hc] at hok
                    exact absurd hok (by simp)
                  · rw [if_neg hc] at hok
                    by_cases hcd : c = 13 ∧ d = 10
                    · rw [if_pos hcd] at hok
                      cases k with
                      | zero =>
                          exfalso
                          apply hh
                          simp [hcd.2]
                      | succ k2 =>
                          have hlen : rest.length ≤ n := by
                            simp only [List.length_cons] at hl
                            omega
                          have hh2 : (rest.drop k2).head? ≠ some 10 := by
                            simpa using hh
                          have hres := ih rest k2 hlen hok hh2
                          constructor
                          · simp only [List.take_succ_cons, crlfOk]
                            rw [if_neg hc, if_pos hcd]
                            exact hres.1
                          · simpa using hres.2
                    · rw [if_neg hcd] at hok
                      have hlen : (d :: rest).length ≤ n := by
                        simp only [List.length_cons] at hl ⊢
                        omega
                      have hh2 : ((d :: rest).drop k).head? ≠ some 10 := by
                        simpa using hh
                      have hres := ih (d :: rest) k hlen hok hh2
                      constructor
                      · simp only [List.take_succ_cons]
                        apply crlfOk_cons c _ hc hres.1
                        cases k with
                        | zero => simp
                        | succ k2 =>
                            simp only [List.take_succ_cons, List.head?_cons]
                            intro hcon
                            have hd10 : d = 10 := by simpa using hcon
                            rw [hd10, crlfOk_lf_head] at hok
                            exact absurd hok (by simp)
                      · simpa using hres.2

/-- Every scalar of the normalized string is CR, LF, or from the original. -/
theorem normalizeCrlf_mem :
    ∀ (s : List ℕ) (c : ℕ), c ∈ normalizeCrlf s → c = 13 ∨ c = 10 ∨ c ∈ s
  | [], c, h => by simp [normalizeCrlf] at h
  | [x], c, h => by
      by_cases hx : x = 10
      · rw [show normalizeCrlf [x] = [13, 10] by simp [normalizeCrlf, hx]] at h
        rcases List.mem_cons.1 h with rfl | h
        · exact Or.inl rfl
        · rcases List.mem_cons.1 h with rfl | h
          · exact Or.inr (Or.inl rfl)
          · simp at h
      · rw [show normalizeCrlf [x] = [x] by simp [normalizeCrlf, hx]] at h
        rcases List.mem_cons.1 h with rfl | h
        · exact Or.inr (Or.inr (List.mem_cons_self _ _))
        · simp at h
  | x :: d :: rest, c, h => by
      by_cases h1 : x = 13 ∧ d = 10
      · rw [show normalizeCrlf (x :: d :: rest) = 13 :: 10 :: normalizeCrlf rest by
          simp [normalizeCrlf, h1]] at h
        rcases List.mem_cons.1 h with rfl | h
        · exact Or.inl rfl
        · rcases List.mem_cons.1 h with rfl | h
          · exact Or.inr (Or.inl rfl)
          · rcases normalizeCrlf_mem rest c h with h2 | h2 | h2
            · exact Or.inl h2
            · exact Or.inr (Or.inl h2)
            · exact Or.inr (Or.inr (List.mem_cons_of_mem _ (List.mem_cons_of_mem _ h2)))
      · by_cases h2 : x = 10
        · rw [show normalizeCrlf (x :: d :: rest) = 13 :: 10 :: normalizeCrlf (d :: rest) by
            simp [normalizeCrlf, h1, h2]] at h
          rcases List.mem_cons.1 h with rfl | h
          · exact Or.inl rfl
          · rcases List.mem_cons.1 h with rfl | h
            · exact Or.inr (Or.inl rfl)
            · rcases normalizeCrlf_mem (d :: rest) c h with h3 | h3 | h3
              · exact Or.inl h3
              · exact Or.inr (Or.inl h3)
              · exact Or.inr (Or.inr (List.mem_cons_of_mem _ h3))
        · rw [show normalizeCrlf (x :: d :: rest) = x :: normalizeCrlf (d :: rest) by
            simp [normalizeCrlf, h1, h2]] at h
          rcases List.mem_cons.1 h with rfl | h
          · exact Or.inr (Or.inr (List.mem_cons_self _ _))
          · rcases normalizeCrlf_mem (d :: rest) c h with h3 | h3 | h3
            · exact Or.inl h3
            · exact Or.inr (Or.inl h3)
            · exact Or.inr (Or.inr (List.mem_cons_of_mem _ h3))

theorem normalizeCrlf_lt (s : List ℕ) (h : ∀ c ∈ s, c < 1114112) :
    ∀ c ∈ normalizeCrlf s, c < 1114112 := by
  intro c hc
  rcases normalizeCrlf_mem s c hc with rfl | rfl | hm
  · omega
  · omega
  · exact h c hm

/-- Normalization fixes CRLF-clean strings. -/
theorem normalizeCrlf_fix : ∀ s : List ℕ, crlfOk s = true → normalizeCrlf s = s
  | [], _ => rfl
  | [c], h => by
      have hc : c ≠ 10 := by simpa [crlfOk] using h
      simp [normalizeCrlf, hc]
  | c :: d :: rest, h => by
      simp only [crlfOk] at h
      by_cases h1 : c = 10
      · rw [if_pos h1] at h
        exact absurd h (by simp)
      · rw [if_neg h1] at h
        by_cases h2 : c = 13 ∧ d = 10
        · rw [if_pos h2] at h
          rw [show normalizeCrlf (c :: d :: rest) = 13 :: 10 :: normalizeCrlf rest by
            simp [normalizeCrlf, h2]]
          rw [normalizeCrlf_fix rest h, h2.1, h2.2]
        · rw [if_neg h2] at h
          rw [show normalizeCrlf (c :: d :: rest) = c :: normalizeCrlf (d :: rest) by
            simp [normalizeCrlf, h1, h2]]
          rw [normalizeCrlf_fix (d :: rest) h]

/-- A regular (non-surrogate) leading code unit passes through the scalar
conversion unchanged. -/
theorem utf16_cons_regular (u : ℕ) (X : List ℕ) (h : u < 55296 ∨ 57344 ≤ u) :
    utf16ToScalars (u :: X) = u :: utf16ToScalars X := by
  cases X with
  | nil =>
      simp only [utf16ToScalars]
      rw [if_neg (by omega)]
  | cons x xs =>
      simp only [utf16ToScalars]
      rw [if_pos h]

/-- A high-low surrogate pair combines into one astral scalar. -/
theorem utf16_cons_pair (u v : ℕ) (X : List ℕ)
    (hu : 55296 ≤ u ∧ u < 56320) (hv : 56320 ≤ v ∧ v < 57344) :
    utf16ToScalars (u :: v :: X) =
      (65536 + (u - 55296) * 1024 + (v - 56320)) :: utf16ToScalars X := by
  simp only [utf16ToScalars]
  rw [if_neg (by omega), if_pos (by omega), if_pos hv]

/-- Prepending a regular code unit preserves well-formedness. -/
theorem wfUtf16_cons_regular (u : ℕ) (X : List ℕ)
    (h : u < 55296 ∨ (57344 ≤ u ∧ u < 65536)) (hX : wfUtf16 X = true) :
    wfUtf16 (u :: X) = true := by
  cases X with
  | nil =>
      simp only [wfUtf16, decide_eq_true_eq]
      exact h
  | cons x xs =>
      simp only [wfUtf16]
      rw [if_pos h]
      exact hX

/-- Dropping a regular leading code unit preserves well-formedness. -/
theorem wfUtf16_tail_regular (u : ℕ) (X : List ℕ) (h : wfUtf16 (u :: X) = true)
    (hreg : u < 55296 ∨ (57344 ≤ u ∧ u < 65536)) : wfUtf16 X = true := by
  cases X with
  | nil => rfl
  | cons x xs =>
      simp only [wfUtf16] at h
      rwa [if_pos hreg] at h

/-- In a well-formed list, a non-regular leading unit must open a surrogate
pair, and the remainder past the pair is well-formed. -/
theorem wfUtf16_pair (u v : ℕ) (rest : List ℕ) (h : wfUtf16 (u :: v :: rest) = true)
    (hnr : ¬(u < 55296 ∨ (57344 ≤ u ∧ u < 65536))) :
    (55296 ≤ u ∧ u < 56320 ∧ 56320 ≤ v ∧ v < 57344) ∧ wfUtf16 rest = true := by
  simp only [wfUtf16] at h
  rw [if_neg hnr] at h
  by_cases hp : 55296 ≤ u ∧ u < 56320 ∧ 56320 ≤ v ∧ v < 57344
  · rw [if_pos hp] at h
    exact ⟨hp, h⟩
  · rw [if_neg hp] at h
    exact absurd h (by simp)

/-- Every unit of a well-formed UTF-16 list is a genuine code unit. -/
theorem wfUtf16_lt : ∀ l : List ℕ, wfUtf16 l = true → ∀ u ∈ l, u < 65536
  | [], _, u, hu => by simp at hu
  | [x], h, u, hu => by
      simp only [wfUtf16, decide_eq_true_eq] at h
      rcases List.mem_cons.1 hu with rfl | hu
      · omega
      · simp at hu
  | x :: v :: rest, h, u, hu => by
      by_cases hreg : x < 55296 ∨ (57344 ≤ x ∧ x < 65536)
      · have h2 := wfUtf16_tail_regular x (v :: rest) h hreg
        rcases List.mem_cons.1 hu with rfl | hu
        · omega
        · exact wfUtf16_lt (v :: rest) h2 u hu
      · obtain ⟨hp, h2⟩ := wfUtf16_pair x v rest h hreg
        rcases List.mem_cons.1 hu with rfl | hu
        · omega
        · rcases List.mem_cons.1 hu with rfl | hu
          · omega
          · exact wfUtf16_lt rest h2 u hu

/-- The scalar conversion of a list of code units yields unicode scalar
values (in particular, values `TextEncoder` can UTF-8 encode). -/
theorem utf16ToScalars_lt :
    ∀ l : List ℕ, (∀ u ∈ l, u < 65536) → ∀ c ∈ utf16ToScalars l, c < 1114112
  | [], _, c, hc => by simp [utf16ToScalars] at hc
  | [x], h, c, hc => by
      have hx : x < 65536 := h x (List.mem_cons_self _ _)
      simp only [utf16ToScalars] at hc
      split_ifs at hc <;> simp only [List.mem_singleton] at hc <;> omega
  | x :: v :: rest, h, c, hc => by
      have hx : x < 65536 := h x (List.mem_cons_self _ _)
      have hrest : ∀ u ∈ (v :: rest), u < 65536 :=
        fun u hu => h u (List.mem_cons_of_mem _ hu)
      have hrest2 : ∀ u ∈ rest, u < 65536 :=
        fun u hu => hrest u (List.mem_cons_of_mem _ hu)
      simp only [utf16ToScalars] at hc
      split_ifs at hc with h1 h2 h3
      · rcases List.mem_cons.1 hc with heq | hc
        · omega
        · exact utf16ToScalars_lt (v :: rest) hrest c hc
      · rcases List.mem_cons.1 hc with heq | hc
        · omega
        · exact utf16ToScalars_lt rest hrest2 c hc
      · rcases List.mem_cons.1 hc with heq | hc
        · omega
        · exact utf16ToScalars_lt (v :: rest) hrest c hc
      · rcases List.mem_cons.1 hc with heq | hc
        · omega
        · exact utf16ToScalars_lt (v :: rest) hrest c hc

/-- Any leading unit other than CR and LF passes through normalization. -/
theorem normalizeCrlf_cons_other (d : ℕ) (rest : List ℕ) (h10 : d ≠ 10)
    (h13 : d ≠ 13) : normalizeCrlf (d :: rest) = d :: normalizeCrlf rest := by
  cases rest with
  | nil => simp [normalizeCrlf, h10]
  | cons r rs =>
      simp only [normalizeCrlf]
      rw [if_neg (by rintro ⟨hcon, _⟩; exact h13 hcon), if_neg h10]

/-- CRLF normalization preserves UTF-16 well-formedness: CR and LF are not
surrogate units, and surrogate pairs pass through untouched. -/
theorem wf_normalizeCrlf : ∀ s : List ℕ, wfUtf16 s = true → wfUtf16 (normalizeCrlf s) = true
  | [], _ => rfl
  | [c], h => by
      have hc : c < 55296 ∨ (57344 ≤ c ∧ c < 65536) := by
        simpa [wfUtf16] using h
      by_cases h10 : c = 10
      · rw [show normalizeCrlf [c] = [13, 10] by simp [normalizeCrlf, h10]]
        decide
      · rw [show normalizeCrlf [c] = [c] by simp [normalizeCrlf, h10]]
        simpa [wfUtf16] using hc
  | c :: d :: rest, h => by
      by_cases h1 : c = 13 ∧ d = 10
      · obtain ⟨hc13, hd10⟩ := h1
        subst hc13
        subst hd10
        have hwf1 : wfUtf16 (10 :: rest) = true :=
          wfUtf16_tail_regular 13 _ h (by omega)
        have hwf2 : wfUtf16 rest = true :=
          wfUtf16_tail_regular 10 _ hwf1 (by omega)
        rw [show normalizeCrlf (13 :: 10 :: rest) = 13 :: 10 :: normalizeCrlf rest by
          simp [normalizeCrlf]]
        exact wfUtf16_cons_regular 13 _ (by omega)
          (wfUtf16_cons_regular 10 _ (by omega) (wf_normalizeCrlf rest hwf2))
      · by_cases h2 : c = 10
        · subst h2
          have hwf1 : wfUtf16 (d :: rest) = true :=
            wfUtf16_tail_regular 10 _ h (by omega)
          rw [show normalizeCrlf (10 :: d :: rest) = 13 :: 10 :: normalizeCrlf (d :: rest) by
            simp [normalizeCrlf, h1]]
          exact wfUtf16_cons_regular 13 _ (by omega)
            (wfUtf16_cons_regular 10 _ (by omega) (wf_normalizeCrlf (d :: rest) hwf1))
        · rw [show normalizeCrlf (c :: d :: rest) = c :: normalizeCrlf (d :: rest) by
            simp [normalizeCrlf, h1, h2]]
          by_cases hreg : c < 55296 ∨ (57344 ≤ c ∧ c < 65536)
          · have hwf1 : wfUtf16 (d :: rest) = true := wfUtf16_tail_regular c _ h hreg
            exact wfUtf16_cons_regular c _ hreg (wf_normalizeCrlf (d :: rest) hwf1)
          · obtain ⟨hp, hwfr⟩ := wfUtf16_pair c d rest h hreg
            have hnd : normalizeCrlf (d :: rest) = d :: normalizeCrlf rest :=
              normalizeCrlf_cons_other d rest (by omega) (by omega)
            rw [hnd]
            simp only [wfUtf16]
            rw [if_neg hreg, if_pos hp]
            exact wf_normalizeCrlf rest hwfr

/-- Cutting a well-formed UTF-16 list at a boundary whose remainder does not
begin with a low surrogate (so the cut does not split a surrogate pair)
keeps the remainder well-formed and makes the scalar conversion distribute
over the cut. -/
theorem utf16_split_aux :
    ∀ (n : ℕ) (l : List ℕ) (k : ℕ), l.length ≤ n → wfUtf16 l = true →
      lowSurr ((l.drop k).headD 0) = false →
      wfUtf16 (l.drop k) = true ∧
        utf16ToScalars (l.take k) ++ utf16ToScalars (l.drop k) = utf16ToScalars l := by
  intro n
  induction n with
  | zero =>
      intro l k hl hwf _
      have h0 : l = [] := List.length_eq_zero.1 (Nat.le_zero.1 hl)
      subst h0
      simp [utf16ToScalars, wfUtf16]
  | succ n ih =>
      intro l k hl hwf hb
      cases k with
      | zero =>
          simp only [List.take_zero, List.drop_zero]
          exact ⟨hwf, by simp [utf16ToScalars]⟩
      | succ k =>
          cases l with
          | nil => simp [wfUtf16, utf16ToScalars]
          | cons u rest =>
              by_cases hreg : u < 55296 ∨ (57344 ≤ u ∧ u < 65536)
              · have hwf2 : wfUtf16 rest = true := wfUtf16_tail_regular u rest hwf hreg
                have hb2 : lowSurr ((rest.drop k).headD 0) = false := by
                  simpa using hb
                have hres := ih rest k (by simp only [List.length_cons] at hl; omega)
                  hwf2 hb2
                refine ⟨by simpa using hres.1, ?_⟩
                simp only [List.take_succ_cons, List.drop_succ_cons]
                rw [utf16_cons_regular u (List.take k rest) (by omega),
                  utf16_cons_regular u rest (by omega)]
                rw [List.cons_append, hres.2]
              · cases rest with
                | nil =>
                    exfalso
                    have hcon : u < 55296 ∨ (57344 ≤ u ∧ u < 65536) := by
                      simpa [wfUtf16] using hwf
                    exact hreg hcon
                | cons v rest2 =>
                    obtain ⟨hp, hwfr⟩ := wfUtf16_pair u v rest2 hwf hreg
                    cases k with
                    | zero =>
                        exfalso
                        have hbv : lowSurr v = false := by simpa using hb
                        simp only [lowSurr, decide_eq_false_iff_not] at hbv
                        exact hbv ⟨hp.2.2.1, hp.2.2.2⟩
                    | succ k2 =>
                        have hb2 : lowSurr ((rest2.drop k2).headD 0) = false := by
                          simpa using hb
                        have hres := ih rest2 k2
                          (by simp only [List.length_cons] at hl; omega) hwfr hb2
                        refine ⟨by simpa using hres.1, ?_⟩
                        simp only [List.take_succ_cons, List.drop_succ_cons]
                        rw [utf16_cons_pair u v (List.take k2 rest2)
                            ⟨hp.1, hp.2.1⟩ ⟨hp.2.2.1, hp.2.2.2⟩,
                          utf16_cons_pair u v rest2 ⟨hp.1, hp.2.1⟩ ⟨hp.2.2.1, hp.2.2.2⟩]
                        rw [List.cons_append, hres.2]

/-- Reading the scalar conversion of a well-formed UTF-16 list back as a JS
string restores the original code units. -/
theorem scalarsToUtf16_utf16ToScalars :
    ∀ l : List ℕ, wfUtf16 l = true → scalarsToUtf16 (utf16ToScalars l) = l
  | [], _ => rfl
  | [u], h => by
      have hu : u < 55296 ∨ (57344 ≤ u ∧ u < 65536) := by simpa [wfUtf16] using h
      rw [utf16_cons_regular u [] (by omega)]
      simp only [scalarsToUtf16]
      rw [if_pos (by omega)]
  | u :: v :: rest, h => by
      by_cases hreg : u < 55296 ∨ (57344 ≤ u ∧ u < 65536)
      · have h2 : wfUtf16 (v :: rest) = true := wfUtf16_tail_regular u _ h hreg
        rw [utf16_cons_regular u (v :: rest) (by omega)]
        simp only [scalarsToUtf16]
        rw [if_pos (by omega)]
        rw [scalarsToUtf16_utf16ToScalars (v :: rest) h2]
      · obtain ⟨hp, hwfr⟩ := wfUtf16_pair u v rest h hreg
        rw [utf16_cons_pair u v rest ⟨hp.1, hp.2.1⟩ ⟨hp.2.2.1, hp.2.2.2⟩]
        simp only [scalarsToUtf16]
        rw [if_neg (by omega)]
        rw [scalarsToUtf16_utf16ToScalars rest hwfr]
        have e1 : 55296 + (65536 + (u - 55296) * 1024 + (v - 56320) - 65536) / 1024 = u := by
          omega
        have e2 : 56320 + (65536 + (u - 55296) * 1024 + (v - 56320) - 65536) % 1024 = v := by
          omega
        rw [e1, e2]

/-- No chunk boundary sits immediately before an LF: for each cut at a
multiple of `k`, the remainder does not start with LF. -/
def chunkStartsOk (k : ℕ) (l : List ℕ) : Bool :=
  if _h : l.length ≤ k ∨ k = 0 then true
  else decide ((l.drop k).head? ≠ some 10) && chunkStartsOk k (l.drop k)
termination_by l.length
decreasing_by
  simp only [List.length_drop]
  omega

/-- No chunk boundary splits a surrogate pair: for each cut at a multiple of
`k`, the remainder does not start with a low surrogate. -/
def chunkPairsOk (k : ℕ) (l : List ℕ) : Bool :=
  if _h : l.length ≤ k ∨ k = 0 then true
  else decide (lowSurr ((l.drop k).headD 0) = false) && chunkPairsOk k (l.drop k)
termination_by l.length
decreasing_by
  simp only [List.length_drop]
  omega

theorem chunkList_flatten_aux {α : Type} (k : ℕ) (hk : 0 < k) :
    ∀ (n : ℕ) (l : List α), l.length ≤ n → (chunkList k l).flatten = l := by
  intro n
  induction n with
  | zero =>
      intro l hl
      have h0 : l = [] := List.length_eq_zero.1 (Nat.le_zero.1 hl)
      subst h0
      rw [chunkList]
      simp
  | succ n ih =>
      intro l hl
      rw [chunkList]
      split_ifs with h
      · rcases h with h | h
        · rw [List.length_eq_zero.1 h]
          rfl
        · omega
      · push_neg at h
        have hrec := ih (l.drop k) (by simp only [List.length_drop]; omega)
        simp only [List.flatten_cons]
        rw [hrec]
        exact List.take_append_drop k l

/-- Decoding the per-chunk blocks of a CRLF-clean, well-formed UTF-16 list
whose chunk cuts avoid LF and avoid splitting surrogate pairs yields the
scalar-value conversion of the whole list. -/
theorem decode_chunkList (k : ℕ) (hk : 0 < k) :
    ∀ (n : ℕ) (l : List ℕ), l.length ≤ n → wfUtf16 l = true →
      crlfOk l = true → chunkStartsOk k l = true → chunkPairsOk k l = true →
      decodeBlocks ((chunkList k l).map base64EncodeUnicode) = utf16ToScalars l := by
  intro n
  induction n with
  | zero =>
      intro l hl _ _ _ _
      have h0 : l = [] := List.length_eq_zero.1 (Nat.le_zero.1 hl)
      subst h0
      rw [chunkList]
      simp [decodeBlocks, utf16ToScalars]
  | succ n ih =>
      intro l hl hwf hok hst hpr
      rw [chunkList]
      split_ifs with h
      · rcases h with h | h
        · rw [List.length_eq_zero.1 h]
          simp [decodeBlocks, utf16ToScalars]
        · omega
      · push_neg at h
        obtain ⟨hlen0, hk0⟩ := h
        have hd_head : (l.drop k).head? ≠ some 10 ∧ chunkStartsOk k (l.drop k) = true := by
          by_cases hlk : l.length ≤ k
          · have hdnil : l.drop k = [] := List.drop_eq_nil_of_le hlk
            rw [hdnil]
            constructor
            · simp
            · rw [chunkStartsOk]
              simp
          · rw [chunkStartsOk, dif_neg (by push_neg; exact ⟨lt_of_not_le hlk, hk0⟩)] at hst
            simp only [Bool.and_eq_true, decide_eq_true_eq] at hst
            exact hst
        have hd_pair : lowSurr ((l.drop k).headD 0) = false ∧
            chunkPairsOk k (l.drop k) = true := by
          by_cases hlk : l.length ≤ k
          · have hdnil : l.drop k = [] := List.drop_eq_nil_of_le hlk
            rw [hdnil]
            constructor
            · rfl
            · rw [chunkPairsOk]
              simp
          · rw [chunkPairsOk, dif_neg (by push_neg; exact ⟨lt_of_not_le hlk, hk0⟩)] at hpr
            simp only [Bool.and_eq_true, decide_eq_true_eq] at hpr
            exact hpr
        have hsplit16 := utf16_split_aux (n + 1) l k hl hwf hd_pair.1
        have htake_drop := crlfOk_take_drop_aux (n + 1) l k hl hok hd_head.1
        have hu65 : ∀ u ∈ l, u < 65536 := wfUtf16_lt l hwf
        have hsc_take : ∀ c ∈ utf16ToScalars (l.take k), c < 1114112 :=
          utf16ToScalars_lt (l.take k) (fun u hu => hu65 u (List.take_subset k l hu))
        have hhead : utf8Decode (base64Decode (base64EncodeUnicode (l.take k))) =
            utf16ToScalars (l.take k) := by
          unfold base64EncodeUnicode
          rw [normalizeCrlf_fix _ htake_drop.1]
          rw [base64_roundtrip _ (utf8Encode_lt_256 _ hsc_take)]
          exact utf8_roundtrip _ hsc_take
        have hrec := ih (l.drop k) (by simp only [List.length_drop]; omega)
          hsplit16.1 htake_drop.2 hd_head.2 hd_pair.2
        have hsplit : decodeBlocks ((l.take k :: chunkList k (l.drop k)).map
            base64EncodeUnicode) =
            utf8Decode (base64Decode (base64EncodeUnicode (l.take k))) ++
              decodeBlocks ((chunkList k (l.drop k)).map base64EncodeUnicode) := by
          simp [decodeBlocks]
        rw [hsplit, hhead, hrec]
        exact hsplit16.2

/-- Counterexample to claim C9: the single-character string `"\n"` splits
into one block; that block's encoding first normalizes the line ending, so
decoding and concatenating yields `"\r\n"`, not the original string. -/
theorem C9_counterexample :
    scalarsToUtf16 (decodeBlocks (splitLuaIntoBase64Blocks [10] 1024)) = [13, 10] ∧
      ([13, 10] : List ℕ) ≠ [10] := by
  constructor
  · have hd : decodeBlocks (splitLuaIntoBase64Blocks [10] 1024) = [13, 10] := by
      show decodeBlocks ((chunkList 1024 (normalizeCrlf [10])).map base64EncodeUnicode) =
        [13, 10]
      rw [show normalizeCrlf [10] = [13, 10] from by simp [normalizeCrlf]]
      rw [chunkList, dif_neg (by simp)]
      rw [chunkList, dif_pos (by simp)]
      have h0 : utf16ToScalars [13, 10] = [13, 10] := by decide
      have h1 : base64EncodeUnicode [13, 10] = base64Encode (utf8Encode [13, 10]) := by
        unfold base64EncodeUnicode
        rw [normalizeCrlf_fix [13, 10] (by decide), h0]
      have h2 : utf8Decode (base64Decode (base64Encode (utf8Encode [13, 10]))) = [13, 10] := by
        rw [base64_roundtrip _ (by decide)]
        exact utf8_roundtrip _ (by decide)
      simp [decodeBlocks, h1, h2]
    rw [hd]
    decide
  · decide

/-- Claim C9 (amended): with strings as UTF-16 code-unit sequences (what JS
`length` and `slice` index), the chunked base64 packaging is inverted by
per-block decoding only up to CRLF normalization: the decoded concatenation
reads back as the CRLF-normalized input (the original exactly when the
input is already CRLF-normalized), provided the input is well-formed UTF-16
and no 1024-code-unit chunk boundary falls immediately before an LF or
inside a surrogate pair.  When a boundary splits a CR-LF pair the second
chunk's re-normalization inserts an extra CR; when it splits a surrogate
pair `TextEncoder` turns each lone half into U+FFFD; and a bare LF anywhere
becomes CR-LF, so the round trip is not exact for arbitrary strings. -/
theorem C9_amended (s : List ℕ) (hwf : wfUtf16 s = true)
    (hchunk : chunkStartsOk 1024 (normalizeCrlf s) = true)
    (hpairs : chunkPairsOk 1024 (normalizeCrlf s) = true) :
    scalarsToUtf16 (decodeBlocks (splitLuaIntoBase64Blocks s 1024)) = normalizeCrlf s ∧
    (crlfOk s = true →
      scalarsToUtf16 (decodeBlocks (splitLuaIntoBase64Blocks s 1024)) = s) := by
  have hwfn : wfUtf16 (normalizeCrlf s) = true := wf_normalizeCrlf s hwf
  have h1 : decodeBlocks (splitLuaIntoBase64Blocks s 1024) =
      utf16ToScalars (normalizeCrlf s) := by
    unfold splitLuaIntoBase64Blocks
    exact decode_chunkList 1024 (by norm_num) (normalizeCrlf s).length _ (le_refl _)
      hwfn (crlfOk_normalizeCrlf s) hchunk hpairs
  have h2 : scalarsToUtf16 (utf16ToScalars (normalizeCrlf s)) = normalizeCrlf s :=
    scalarsToUtf16_utf16ToScalars _ hwfn
  refine ⟨by rw [h1, h2], fun hok => ?_⟩
  rw [h1, h2, normalizeCrlf_fix s hok]

theorem C9_amended_witness :
    scalarsToUtf16 (decodeBlocks (splitLuaIntoBase64Blocks [72, 105, 13, 10] 1024)) =
      normalizeCrlf [72, 105, 13, 10] ∧
    (crlfOk [72, 105, 13, 10] = true →
      scalarsToUtf16 (decodeBlocks (splitLuaIntoBase64Blocks [72, 105, 13, 10] 1024)) =
        [72, 105, 13, 10]) :=
  C9_amended [72, 105, 13, 10] (by decide)
    (by rw [chunkStartsOk]; simp [normalizeCrlf])
    (by rw [chunkPairsOk]; simp [normalizeCrlf])

end TempoMap
